import Mathlib

/-!
NRV2E decompressor (`nrv2e/Main.cpp`): shallow embedding and properties.

The C++ program keeps its parse state in the process-wide variables `ilen`,
`current_bit`, `current_byte` and `src`.  The embedding passes that state
explicitly: `Reader` holds the three cursor variables, and `src` (which
`decompress_NRV2E` overwrites with its argument on entry) is a parameter.

* `std::byte` is `Fin 256`; `unsigned` is a `Nat` reduced `% 2 ^ 32` after every
  operation that can leave the 32-bit range.
* `ilen` (a `signed` that only ever grows from 4) is a `Nat` and is never wrapped: the
  embedding is the program as long as `ilen` stays at most `INT_MAX`
  (`Reader.representable`), as it does on every stream of at most `2 ^ 31 - 1` bytes.
* The only exception the program raises is the `std::invalid_argument` of
  `get_bit`; it is `Fault.outOfRange`.  `std::vector::operator[]` is unchecked,
  so an index outside a vector has no defined behaviour in C++.  The embedding
  follows the program up to the first such access and reports which access it was
  (`Fault.srcIndex`, `Fault.dstRead`, `Fault.dstWrite`); the program itself performs
  the access and goes on from there, and nothing is stated about what it does then.
  A result `.ok` or `Fault.outOfRange` is a run in which every access was inside its
  vector.
* In `dst[olen++] = src[ilen++]` and `dst[olen++] = dst[m_pos++]` the right-hand
  side is evaluated before the left-hand side (C++17).
* The allocation `std::vector<std::byte> dst(dest_size)` is taken to succeed; it
  yields `dest_size` zero bytes.
* `base64_decode` is a structural recursion on its input; `signed valb` is an `Int`.
* Loops are structural recursions on an iteration budget; `Fault.fuel` reports
  an exhausted budget.  `decompress_run_holds` shows that the budget
  `decompress_run` starts with never runs out.
* `main_pass` is the body of the main loop on its own; `main_loop_succ` shows that
  `main_loop` is its iteration.
-/

namespace NRV2E

/-- One `std::byte`. -/
abbrev Byte := Fin 256

/-- Ways in which a run of the embedding ends without a value: the exception the program
raises, the first access outside a vector (which the program performs, unchecked), or the
budget. -/
inductive Fault where
  /-- The `std::invalid_argument` thrown by `get_bit`. -/
  | outOfRange : Fault
  /-- The unchecked read `src[i]` with `i ≥ src.size()`. -/
  | srcIndex (i : Nat) : Fault
  /-- The unchecked read `dst[i]` with `i ≥ dst.size()`. -/
  | dstRead (i : Nat) : Fault
  /-- The unchecked write `dst[i] = _` with `i ≥ dst.size()`. -/
  | dstWrite (i : Nat) : Fault
  /-- The iteration budget of a loop of the embedding ran out. -/
  | fuel : Fault
  deriving DecidableEq, Repr

/-- The globals `ilen`, `current_bit` and `current_byte`.  `ilen` is a `signed` in the
program; here it is a natural number that is never wrapped, see `Reader.representable`. -/
structure Reader where
  ilen : Nat
  current_bit : Nat
  current_byte : Byte
  deriving DecidableEq, Repr

/-- The constant `START_OFFSET` (line 24). -/
def START_OFFSET : Nat := 4

/-- The reader state at process start (lines 25-27): `ilen{ START_OFFSET }`,
`current_bit{ 0 }`, `current_byte{ 0 }`. -/
def Reader.initial : Reader :=
  { ilen := START_OFFSET, current_bit := 0, current_byte := 0 }

/-- The largest value of a `signed`, `2 ^ 31 - 1`. -/
def INT_MAX : Nat := 2147483647

/-- The cursor `ilen` has a value that the `signed ilen` of the program can hold. -/
def Reader.representable (rd : Reader) : Prop :=
  rd.ilen ≤ INT_MAX

/-- The number of values of an `unsigned`, `2 ^ 32`. -/
def U32 : Nat := 4294967296

/-- The value `std::numeric_limits<unsigned>().max()`, `2 ^ 32 - 1`. -/
def UMAX : Nat := 4294967295

/-- The expression `src[i]`. -/
def read_src (src : List Byte) (i : Nat) : Except Fault Byte :=
  match src[i]? with
  | some b => .ok b
  | none => .error (.srcIndex i)

/-- The expression `dst[i]` used as a value. -/
def read_dst (dst : List Byte) (i : Nat) : Except Fault Byte :=
  match dst[i]? with
  | some b => .ok b
  | none => .error (.dstRead i)

/-- The assignment `dst[i] = v`. -/
def write_dst (dst : List Byte) (i : Nat) (v : Byte) : Except Fault (List Byte) :=
  if i < dst.length then .ok (dst.set i v) else .error (.dstWrite i)

/-- The function `get_bit` (lines 30-42): the range test comes first, then the
refill of the bit buffer, then the extraction of the next bit. -/
def get_bit (src : List Byte) (rd : Reader) : Except Fault (Nat × Reader) :=
  if rd.ilen ≥ src.length then .error .outOfRange
  else do
    let rd ←
      if rd.current_bit = 0 then do
        let b ← read_src src rd.ilen
        pure { ilen := rd.ilen + 1, current_bit := 8, current_byte := b }
      else pure rd
    let cb := rd.current_bit - 1
    pure ((rd.current_byte.val >>> cb) &&& 1, { rd with current_bit := cb })

/-- The locals of `decompress_NRV2E` that live across iterations of the main
loop, together with the reader globals. -/
structure Decoder where
  rd : Reader
  dst : List Byte
  olen : Nat
  last_m_off : Nat
  deriving DecidableEq, Repr

/-- How the main loop was left: by the `break` on the end marker (line 86) or by
its test `ilen < src.size()` failing (line 58). -/
inductive Exit where
  | marker : Exit
  | exhausted : Exit
  deriving DecidableEq, Repr

/-- The literal loop (lines 63-66): `while (get_bit() == 1) dst[olen++] = src[ilen++];`.
The right-hand side of the assignment is evaluated first. -/
def literal_loop (src : List Byte) :
    Nat → Reader → List Byte → Nat → Except Fault (Reader × List Byte × Nat)
  | 0, _, _, _ => .error .fuel
  | fuel + 1, rd, dst, olen => do
    let (b, rd) ← get_bit src rd
    if b = 1 then do
      let v ← read_src src rd.ilen
      let dst ← write_dst dst olen v
      literal_loop src fuel { rd with ilen := rd.ilen + 1 } dst ((olen + 1) % U32)
    else pure (rd, dst, olen)

/-- The offset prefix loop (lines 69-75), entered with `m_off = 1`. -/
def offset_loop (src : List Byte) : Nat → Reader → Nat → Except Fault (Nat × Reader)
  | 0, _, _ => .error .fuel
  | fuel + 1, rd, m_off => do
    let (a, rd) ← get_bit src rd
    let m_off := (m_off * 2 + a) % U32
    let (t, rd) ← get_bit src rd
    if t = 1 then pure (m_off, rd)
    else do
      let (c, rd) ← get_bit src rd
      offset_loop src fuel rd (((m_off + U32 - 1) % U32 * 2 + c) % U32)

/-- The long length loop (lines 98-101):
`do m_len = m_len * 2 + get_bit(); while (get_bit() == 0);`. -/
def length_loop (src : List Byte) : Nat → Reader → Nat → Except Fault (Nat × Reader)
  | 0, _, _ => .error .fuel
  | fuel + 1, rd, m_len => do
    let (a, rd) ← get_bit src rd
    let m_len := (m_len * 2 + a) % U32
    let (t, rd) ← get_bit src rd
    if t = 0 then length_loop src fuel rd m_len else pure (m_len, rd)

/-- The length decode (lines 91-103), entered with the length seed `m_len`. -/
def length_decode (src : List Byte) (fuel : Nat) (rd : Reader) (m_len : Nat) :
    Except Fault (Nat × Reader) :=
  if m_len > 0 then do
    let (b, rd) ← get_bit src rd
    pure (1 + b, rd)
  else do
    let (t, rd) ← get_bit src rd
    if t = 1 then do
      let (b, rd) ← get_bit src rd
      pure (3 + b, rd)
    else do
      let (m_len, rd) ← length_loop src fuel rd ((m_len + 1) % U32)
      pure ((m_len + 3) % U32, rd)

/-- One execution of `dst[olen++] = dst[m_pos++]`. -/
def copy_byte (dst : List Byte) (olen m_pos : Nat) : Except Fault (List Byte × Nat × Nat) := do
  let v ← read_dst dst m_pos
  let dst ← write_dst dst olen v
  pure (dst, (olen + 1) % U32, (m_pos + 1) % U32)

/-- The loop of line 110: `do dst[olen++] = dst[m_pos++]; while (--m_len > 0);`. -/
def copy_loop : Nat → List Byte → Nat → Nat → Nat → Except Fault (List Byte × Nat)
  | 0, _, _, _, _ => .error .fuel
  | fuel + 1, dst, olen, m_pos, m_len => do
    let (dst, olen, m_pos) ← copy_byte dst olen m_pos
    let m_len := (m_len + U32 - 1) % U32
    if m_len > 0 then copy_loop fuel dst olen m_pos m_len else pure (dst, olen)

/-- The copy step (lines 106-110): `m_pos = olen - m_off`, one copy, then the
loop.  The loop counter is an `unsigned`, so the loop body runs at most `2 ^ 32`
times. -/
def copy_step (dst : List Byte) (olen m_off m_len : Nat) : Except Fault (List Byte × Nat) := do
  let m_pos := (olen + U32 - m_off) % U32
  let (dst, olen, m_pos) ← copy_byte dst olen m_pos
  copy_loop U32 dst olen m_pos m_len

/-- What the offset decode of lines 68-90 hands to the length decode: either the
end marker was seen, or a match with its offset, length seed and the new
`last_m_off`. -/
inductive Offset where
  | stop (rd : Reader) : Offset
  | go (rd : Reader) (m_off m_len last_m_off : Nat) : Offset
  deriving DecidableEq, Repr

/-- Lines 77-90: the repeat-offset case and the fresh-offset case, given the
value `m_off` of the prefix code. -/
def offset_decode (src : List Byte) (rd : Reader) (m_off last_m_off : Nat) :
    Except Fault Offset :=
  if m_off = 2 then do
    let (b, rd) ← get_bit src rd
    pure (.go rd last_m_off b last_m_off)
  else do
    let b ← read_src src rd.ilen
    let rd := { rd with ilen := rd.ilen + 1 }
    let m_off := ((m_off + U32 - 3) % U32 * 256 + b.val) % U32
    if m_off = UMAX then pure (.stop rd)
    else
      let m_len := (m_off ^^^ UMAX) &&& 1
      let m_off := m_off >>> 1
      let m_off := (m_off + 1) % U32
      pure (.go rd m_off m_len m_off)

/-- The main loop (lines 58-111).  `budget` is handed to the inner bit loops. -/
def main_loop (src : List Byte) (budget : Nat) : Nat → Decoder → Except Fault (Exit × Decoder)
  | fuel, st =>
    if st.rd.ilen < src.length then
      match fuel with
      | 0 => .error .fuel
      | fuel + 1 => do
        let (rd, dst, olen) ← literal_loop src budget st.rd st.dst st.olen
        let (m_off, rd) ← offset_loop src budget rd 1
        match ← offset_decode src rd m_off st.last_m_off with
        | .stop rd => pure (.marker, { st with rd := rd, dst := dst, olen := olen })
        | .go rd m_off m_len last_m_off => do
          let (m_len, rd) ← length_decode src budget rd m_len
          let m_len := (m_len + (if m_off > 0x500 then 1 else 0)) % U32
          let (dst, olen) ← copy_step dst olen m_off m_len
          main_loop src budget fuel
            { rd := rd, dst := dst, olen := olen, last_m_off := last_m_off }
    else pure (.exhausted, st)

/-- How one pass of the main loop body ends: with the `break` of line 86, or with a copied
match of effective offset `m_off` and the state in which the next pass starts. -/
inductive Pass where
  | stop (st : Decoder) : Pass
  | next (m_off : Nat) (st : Decoder) : Pass
  deriving DecidableEq, Repr

/-- One pass of the main loop body (lines 60-110) from the state `st`; `main_loop_succ` shows
that `main_loop` is the iteration of this pass. -/
def main_pass (src : List Byte) (budget : Nat) (st : Decoder) : Except Fault Pass := do
  let (rd, dst, olen) ← literal_loop src budget st.rd st.dst st.olen
  let (m_off, rd) ← offset_loop src budget rd 1
  match ← offset_decode src rd m_off st.last_m_off with
  | .stop rd => pure (.stop { st with rd := rd, dst := dst, olen := olen })
  | .go rd m_off m_len last_m_off => do
    let (m_len, rd) ← length_decode src budget rd m_len
    let m_len := (m_len + (if m_off > 0x500 then 1 else 0)) % U32
    let (dst, olen) ← copy_step dst olen m_off m_len
    pure (.next m_off { rd := rd, dst := dst, olen := olen, last_m_off := last_m_off })

/-- The header of lines 48-51: the little-endian value of `src[0..3]`. -/
def read_dest_size (src : List Byte) : Except Fault Nat := do
  let b0 ← read_src src 0
  let b1 ← read_src src 1
  let b2 ← read_src src 2
  let b3 ← read_src src 3
  pure (b0.val ||| b1.val <<< 8 ||| b2.val <<< 16 ||| b3.val <<< 24)

/-- The number of bits the reader can still deliver: every successful `get_bit`
lowers it by one, every byte read by eight. -/
def unread_bits (src : List Byte) (rd : Reader) : Nat :=
  8 * (src.length - rd.ilen) + rd.current_bit

/-- The body of `decompress_NRV2E` (lines 44-113), run with the globals in state
`rd`; the result is how the main loop was left and the final state. -/
def decompress_run (rd : Reader) (source_data : List Byte) : Except Fault (Exit × Decoder) := do
  let dest_size ← read_dest_size source_data
  let budget := unread_bits source_data rd + 1
  main_loop source_data budget budget
    { rd := rd, dst := List.replicate dest_size 0, olen := 0, last_m_off := 1 }

/-- The function `decompress_NRV2E`: the returned vector `dst`, and the globals
as the call leaves them. -/
def decompress_NRV2E (rd : Reader) (source_data : List Byte) :
    Except Fault (List Byte × Reader) := do
  let (_, st) ← decompress_run rd source_data
  pure (st.dst, st.rd)

/-! ## The base64 decoder -/

/-- The alphabet string of `base64_decode` (line 121), as bytes. -/
def base64_alphabet : List Byte :=
  "ABCDEFGHIJKLMNOPQRSTUVWXYZabcdefghijklmnopqrstuvwxyz0123456789+/".toList.map
    (fun c => Fin.ofNat c.toNat)

/-- The table `T` (lines 119-121): 256 entries `-1`, then `T[alphabet[i]] = i` for
`i = 0..63` in this order. -/
def base64_table : Byte → Int :=
  (List.range 64).foldl
    (fun T i => fun b => if b = base64_alphabet.getD i 0 then (i : Int) else T b)
    (fun _ => -1)

/-- The loop of `base64_decode` (lines 125-135) over the rest of the input, with the
accumulator `val`, the bit count `valb` and the output so far. -/
def base64_loop : List Byte → Nat → Int → List Byte → List Byte
  | [], _, _, out => out
  | b :: rest, val, valb, out =>
    if base64_table b = -1 then out
    else
      let val := ((val <<< 6) + (base64_table b).toNat) % U32
      let valb := valb + 6
      if valb ≥ 0 then
        base64_loop rest val (valb - 8) (out ++ [Fin.ofNat ((val >>> valb.toNat) &&& 0xFF)])
      else base64_loop rest val valb out

/-- The function `base64_decode` (lines 115-137).  `std::vector<std::byte> out{ 0 }` selects
the size constructor (an `int` does not convert implicitly to `std::byte`), so `out` starts
empty; `val` starts at 0 and `valb` at -8. -/
def base64_decode (inp : List Byte) : List Byte :=
  base64_loop inp 0 (-8) []

/-! ## Predicates used to state the properties -/

/-- The result `r` satisfies `P` when it is a value and `E` when it is a fault. -/
def Holds {α : Type} (P : α → Prop) (E : Fault → Prop) : Except Fault α → Prop
  | .ok a => P a
  | .error e => E e

/-- The buffer has `D` bytes, the write cursor is inside it, and nothing was written at or
after the cursor. -/
def Filled (D : Nat) (dst : List Byte) (olen : Nat) : Prop :=
  dst.length = D ∧ olen ≤ D ∧ ∀ i, olen ≤ i → i < D → dst[i]? = some 0

/-- The faults a run can end in when its budget is large enough and the buffer has `D`
bytes: never the budget, and a write outside the buffer only at index `D`. -/
def Benign (D : Nat) (e : Fault) : Prop :=
  e ≠ .fuel ∧ ∀ i, e = .dstWrite i → i = D

/-- The reader an offset decode ends with. -/
def Offset.reader : Offset → Reader
  | .stop rd => rd
  | .go rd _ _ _ => rd

/-- After `j` copied bytes of a match at write position `olen` with offset `m_off`: the
buffer `d` has the length of the buffer `dst` the match started from, the `j` new bytes repeat
the `m_off` bytes before `olen`, and every other byte is as in `dst`. -/
def Pattern (dst : List Byte) (olen m_off : Nat) (d : List Byte) (j : Nat) : Prop :=
  d.length = dst.length ∧
  (∀ i, i < j → d[olen + i]? = dst[olen - m_off + i % m_off]?) ∧
  (∀ x, x < olen ∨ olen + j ≤ x → d[x]? = dst[x]?)

/-- The result `r'` on a prefix of a stream against the result `r` on the whole stream:
the prefix run stops at the end of the prefix (the error of `get_bit`, or an unchecked read of
the stream), or one of the two budgets ran out, or both runs agree. -/
def Trunc {α : Type} (r' r : Except Fault α) : Prop :=
  r' = .error .outOfRange ∨ (∃ i, r' = .error (.srcIndex i)) ∨ r' = .error .fuel ∨
    r = .error .fuel ∨ r' = r

/-- The same comparison for the main loop on a prefix of `n` bytes: the prefix run may also
leave the loop at its test with the cursor at the end of the prefix, and when both runs agree
on an end-marker exit the cursor is still inside the prefix. -/
def TruncMain (n : Nat) (r' r : Except Fault (Exit × Decoder)) : Prop :=
  r' = .error .outOfRange ∨ (∃ i, r' = .error (.srcIndex i)) ∨ r' = .error .fuel ∨
    r = .error .fuel ∨ (∃ st, r' = .ok (.exhausted, st) ∧ n ≤ st.rd.ilen) ∨
    (r' = r ∧ ∀ st, r' = .ok (.marker, st) → st.rd.ilen ≤ n)

/-! ## Literal-only streams -/

/-- What the decoder takes from the stream, in the order it takes it: a bit through
`get_bit`, or a whole byte through `src[ilen++]`. -/
inductive Event where
  | bit (b : Bool) : Event
  | raw (v : Byte) : Event
  deriving DecidableEq, Repr

/-- The bits among a list of events. -/
def Event.bits : List Event → List Bool
  | [] => []
  | .bit b :: evs => b :: Event.bits evs
  | .raw _ :: evs => Event.bits evs

/-- The value of the first `k` bits of a list, most significant first, padded with zeros. -/
def bits_val : Nat → List Bool → Nat
  | 0, _ => 0
  | _ + 1, [] => 0
  | k + 1, b :: bs => b.toNat * 2 ^ k + bits_val k bs

/-- The bit byte holding the next eight bits, most significant first. -/
def pack_byte (bs : List Bool) : Byte :=
  Fin.ofNat (bits_val 8 bs)

/-- The byte layout of a list of events: a bit byte is placed where the reader first needs
one of its bits (`avail` counts the bits still buffered), a raw byte where it is read. -/
def layout : Nat → List Event → List Byte
  | _, [] => []
  | avail, .raw v :: evs => v :: layout avail evs
  | 0, .bit b :: evs => pack_byte (b :: Event.bits evs) :: layout 7 evs
  | avail + 1, .bit _ :: evs => layout avail evs

/-- The 38-bit offset code of the end marker: `000`, ten times `100`, `101`, `01`. -/
def end_marker_code : List Bool :=
  [false, false, false] ++ (List.replicate 10 [true, false, false]).flatten
    ++ [true, false, true] ++ [false, true]

/-- The flags and bytes of a literal-only body: for each literal a `1` flag and the byte,
then a `0` flag and the end-marker code. -/
def literal_flags : List Byte → List Event
  | [] => .bit false :: end_marker_code.map .bit
  | v :: L => .bit true :: .raw v :: literal_flags L

/-- The events of a literal-only body: the flags and bytes, then the extension byte `0xFF`. -/
def literal_events (L : List Byte) : List Event :=
  literal_flags L ++ [.raw 0xFF]

/-- The little-endian 32-bit header. -/
def header (n : Nat) : List Byte :=
  [Fin.ofNat n, Fin.ofNat (n / 256), Fin.ofNat (n / 65536), Fin.ofNat (n / 16777216)]

/-- The literal-only stream of the bytes `L`. -/
def literal_stream (L : List Byte) : List Byte :=
  header L.length ++ layout 0 (literal_events L)

/-- The literal-only body of the bytes `L` behind a header that declares `d` bytes;
`literal_stream L` is `sized_stream L.length L`. -/
def sized_stream (d : Nat) (L : List Byte) : List Byte :=
  header d ++ layout 0 (literal_events L)

/-- Reading the events `evs` from the stream takes the reader from `rd` to `rd'`. -/
def Reads (src : List Byte) : Reader → List Event → Reader → Prop
  | rd, [], rd' => rd' = rd
  | rd, .bit b :: evs, rd' =>
    ∃ rd1, get_bit src rd = .ok (b.toNat, rd1) ∧ Reads src rd1 evs rd'
  | rd, .raw v :: evs, rd' =>
    read_src src rd.ilen = .ok v ∧ Reads src { rd with ilen := rd.ilen + 1 } evs rd'

/-! ## Matches -/

/-- One pass of the main loop body that ends with a copied match (lines 60-110): from the
decoder state `st`, a match with effective offset `m_off` is copied and the next pass starts
in state `st'`. -/
def Match (src : List Byte) (budget : Nat) (st : Decoder) (m_off : Nat) (st' : Decoder) :
    Prop :=
  ∃ rd1 dst1 olen1 p rd2 rd3 seed lmo m_len rd4 dst5 olen5,
    literal_loop src budget st.rd st.dst st.olen = .ok (rd1, dst1, olen1) ∧
    offset_loop src budget rd1 1 = .ok (p, rd2) ∧
    offset_decode src rd2 p st.last_m_off = .ok (.go rd3 m_off seed lmo) ∧
    length_decode src budget rd3 seed = .ok (m_len, rd4) ∧
    copy_step dst1 olen1 m_off ((m_len + (if m_off > 0x500 then 1 else 0)) % U32)
      = .ok (dst5, olen5) ∧
    st' = { rd := rd4, dst := dst5, olen := olen5, last_m_off := lmo }

/-- The decoder states at the head of the main loop that can be reached from `st0`: `st0`
itself, and the state a pass of the loop body leaves when it is entered in a reachable state
and ends with a copied match. -/
inductive Reachable (src : List Byte) (budget : Nat) (st0 : Decoder) : Decoder → Prop where
  | start : Reachable src budget st0 st0
  | next (st st' : Decoder) (m_off : Nat) : Reachable src budget st0 st →
      st.rd.ilen < src.length → main_pass src budget st = .ok (.next m_off st') →
      Reachable src budget st0 st'

/-- The main loop, at its head in state `st`, ends with the result `r` without starting
another pass after this one: the test `ilen < src.size()` fails, or the pass entered here ends
with the `break` of line 86, or it ends with the error of `get_bit` or at an access outside a
vector. -/
def LoopEnds (src : List Byte) (budget : Nat) (st : Decoder)
    (r : Except Fault (Exit × Decoder)) : Prop :=
  if st.rd.ilen < src.length then
    (∃ st', main_pass src budget st = .ok (.stop st') ∧ r = .ok (.marker, st')) ∨
    (∃ e, main_pass src budget st = .error e ∧ r = .error e)
  else r = .ok (.exhausted, st)

/-- The bits of a long length code with the data bits `as`: after each data bit but the
last a `0`, after the last a `1`. -/
def length_code : List Bool → List Event
  | [] => []
  | [a] => [.bit a, .bit true]
  | a :: as => .bit a :: .bit false :: length_code as

/-! ## Base64 text -/

/-- The characters `A-Z`, `a-z`, `0-9`, `+` and `/`. -/
def is_base64 (b : Byte) : Prop :=
  (65 ≤ b.val ∧ b.val ≤ 90) ∨ (97 ≤ b.val ∧ b.val ≤ 122) ∨ (48 ≤ b.val ∧ b.val ≤ 57) ∨
    b.val = 43 ∨ b.val = 47

instance (b : Byte) : Decidable (is_base64 b) := by unfold is_base64; infer_instance

/-- The 6-bit value of a character: `A-Z` are 0..25, `a-z` 26..51, `0-9` 52..61, `+` 62,
`/` 63. -/
def sextet (b : Byte) : Nat :=
  if 65 ≤ b.val ∧ b.val ≤ 90 then b.val - 65
  else if 97 ≤ b.val ∧ b.val ≤ 122 then b.val - 97 + 26
  else if 48 ≤ b.val ∧ b.val ≤ 57 then b.val - 48 + 52
  else if b.val = 43 then 62
  else 63

/-- The number whose binary digits are the 6-bit values of the characters, first character
first. -/
def sextets_val (inp : List Byte) : Nat :=
  inp.foldl (fun acc b => acc * 64 + sextet b) 0

/-- `out` is the byte string of `inp`: it has `6 * |inp| / 8` bytes, and byte `j` is made of
bits `8j .. 8j+7` of the `6 * |inp|` bits of `sextets_val inp`, counted from the top. -/
def Decoded (inp out : List Byte) : Prop :=
  out.length = 6 * inp.length / 8 ∧
  ∀ j, j < 6 * inp.length / 8 →
    (out[j]?).map Fin.val
      = some (sextets_val inp / 2 ^ (6 * inp.length - 8 * (j + 1)) % 256)

-- Results of runs are compared by evaluation.
deriving instance DecidableEq for Except

end NRV2E

namespace NRV2E

/-! ## The bit reader -/

theorem get_bit_of_le (src : List Byte) (rd : Reader) (h : src.length ≤ rd.ilen) :
    get_bit src rd = .error .outOfRange := by
  simp [get_bit, h]

theorem get_bit_load (src : List Byte) (i : Nat) (c b : Byte) (h : src[i]? = some b) :
    get_bit src ⟨i, 0, c⟩ = .ok ((b.val >>> 7) &&& 1, ⟨i + 1, 7, b⟩) := by
  have hi : i < src.length := by
    rcases Nat.lt_or_ge i src.length with h1 | h1
    · exact h1
    · rw [List.getElem?_eq_none h1] at h; cases h
  have : ¬ src.length ≤ i := by omega
  simp [get_bit, read_src, h, this]

theorem get_bit_buffered (src : List Byte) (rd : Reader) (h : rd.ilen < src.length)
    (hc : 0 < rd.current_bit) :
    get_bit src rd = .ok ((rd.current_byte.val >>> (rd.current_bit - 1)) &&& 1,
      { rd with current_bit := rd.current_bit - 1 }) := by
  have h1 : ¬ src.length ≤ rd.ilen := by omega
  have h2 : rd.current_bit ≠ 0 := by omega
  simp [get_bit, h1, h2]
  rfl

theorem and_one_le (x : Nat) : x &&& 1 ≤ 1 := by
  rw [Nat.and_one_is_mod]; omega

/-- Inside the stream `get_bit` succeeds: it returns a bit, uses up exactly one unread bit
and moves the cursor by at most one byte, never past the end. -/
theorem get_bit_of_lt (src : List Byte) (rd : Reader) (h : rd.ilen < src.length) :
    ∃ b rd', get_bit src rd = .ok (b, rd') ∧ b ≤ 1 ∧
      unread_bits src rd' + 1 = unread_bits src rd ∧
      rd.ilen ≤ rd'.ilen ∧ rd'.ilen ≤ src.length := by
  obtain ⟨i, c, b⟩ := rd
  simp only at h
  rcases Nat.eq_zero_or_pos c with hc | hc
  · subst hc
    refine ⟨_, _, get_bit_load src i b (src[i]) (List.getElem?_eq_getElem h), and_one_le _, ?_, ?_, ?_⟩
    · simp only [unread_bits]; omega
    · simp
    · simp only; omega
  · refine ⟨_, _, get_bit_buffered src ⟨i, c, b⟩ h hc, and_one_le _, ?_, ?_, ?_⟩
    · simp only [unread_bits]; omega
    · simp
    · simp only; omega

/-- A successful `get_bit` was made inside the stream. -/
theorem get_bit_ok_lt (src : List Byte) (rd : Reader) (r : Nat × Reader)
    (h : get_bit src rd = .ok r) : rd.ilen < src.length := by
  by_contra hge
  rw [get_bit_of_le src rd (by omega)] at h
  cases h

/-! ## Results of runs: values and faults -/

theorem Holds.bind {α β : Type} {P : α → Prop} {Q : β → Prop} {E : Fault → Prop}
    {x : Except Fault α} {f : α → Except Fault β}
    (hx : Holds P E x) (hf : ∀ a, P a → Holds Q E (f a)) : Holds Q E (x >>= f) := by
  cases x with
  | error e => exact hx
  | ok a => exact hf a hx

theorem Holds.mono {α : Type} {P P' : α → Prop} {E E' : Fault → Prop} {x : Except Fault α}
    (hx : Holds P E x) (hP : ∀ a, P a → P' a) (hE : ∀ e, E e → E' e) : Holds P' E' x := by
  cases x with
  | error e => exact hE e hx
  | ok a => exact hP a hx

theorem Holds.ok {α : Type} {P : α → Prop} {E : Fault → Prop} {x : Except Fault α} {a : α}
    (hx : Holds P E x) (h : x = .ok a) : P a := by
  subst h; exact hx

theorem Holds.error {α : Type} {P : α → Prop} {E : Fault → Prop} {x : Except Fault α}
    {e : Fault} (hx : Holds P E x) (h : x = .error e) : E e := by
  subst h; exact hx

theorem benign_outOfRange (D : Nat) : Benign D .outOfRange :=
  ⟨fun h => (nomatch h), fun _ h => (nomatch h)⟩

theorem get_bit_holds (src : List Byte) (rd : Reader) :
    Holds (fun r => r.1 ≤ 1 ∧ unread_bits src r.2 + 1 = unread_bits src rd ∧
        rd.ilen ≤ r.2.ilen ∧ r.2.ilen ≤ src.length)
      (fun e => e = .outOfRange) (get_bit src rd) := by
  rcases Nat.lt_or_ge rd.ilen src.length with hlt | hge
  · obtain ⟨b, rd', hok, h⟩ := get_bit_of_lt src rd hlt
    rw [hok]; exact h
  · rw [get_bit_of_le src rd hge]; rfl

theorem get_bit_benign (D : Nat) (src : List Byte) (rd : Reader) :
    Holds (fun r => r.1 ≤ 1 ∧ unread_bits src r.2 + 1 = unread_bits src rd ∧
        rd.ilen ≤ r.2.ilen ∧ r.2.ilen ≤ src.length)
      (Benign D) (get_bit src rd) :=
  (get_bit_holds src rd).mono (fun _ h => h) (fun e h => by subst h; exact benign_outOfRange D)

theorem read_src_holds (D : Nat) (src : List Byte) (i : Nat) :
    Holds (fun _ => i < src.length) (Benign D) (read_src src i) := by
  unfold read_src
  rcases Nat.lt_or_ge i src.length with hlt | hge
  · rw [List.getElem?_eq_getElem hlt]; exact hlt
  · rw [List.getElem?_eq_none hge]
    exact ⟨fun h => (nomatch h), fun _ h => (nomatch h)⟩

theorem read_dst_holds (D : Nat) (dst : List Byte) (i : Nat) :
    Holds (fun _ => True) (Benign D) (read_dst dst i) := by
  unfold read_dst
  cases dst[i]? with
  | some b => trivial
  | none => exact ⟨fun h => (nomatch h), fun _ h => (nomatch h)⟩

theorem write_dst_holds (D : Nat) (hD : D < U32) (dst : List Byte) (olen : Nat) (v : Byte)
    (h : Filled D dst olen) :
    Holds (fun dst' => olen < D ∧ Filled D dst' ((olen + 1) % U32)) (Benign D)
      (write_dst dst olen v) := by
  obtain ⟨hl, ho, hz⟩ := h
  unfold write_dst
  by_cases hlt : olen < dst.length
  · simp only [hlt, if_true]
    have : (olen + 1) % U32 = olen + 1 := Nat.mod_eq_of_lt (by omega)
    rw [this]
    refine ⟨by omega, by simp [hl], by omega, fun i hi hiD => ?_⟩
    rw [List.getElem?_set]
    have : olen ≠ i := by omega
    simp only [this, if_false]
    exact hz i (by omega) hiD
  · simp only [hlt, if_false]
    refine ⟨fun h => (nomatch h), fun i h => ?_⟩
    cases h
    omega

theorem literal_loop_holds (D : Nat) (hD : D < U32) (src : List Byte) :
    ∀ (fuel : Nat) (rd : Reader) (dst : List Byte) (olen : Nat),
      Filled D dst olen → unread_bits src rd < fuel →
      Holds (fun r => Filled D r.2.1 r.2.2 ∧ unread_bits src r.1 < unread_bits src rd ∧
          r.1.ilen ≤ src.length)
        (Benign D) (literal_loop src fuel rd dst olen) := by
  intro fuel
  induction fuel with
  | zero => intro rd dst olen _ h; omega
  | succ fuel ih =>
    intro rd dst olen hF hfuel
    unfold literal_loop
    refine (get_bit_benign D src rd).bind ?_
    rintro ⟨b, rd1⟩ ⟨-, hu, -, hle⟩
    simp only at hu hle ⊢
    split
    · refine (read_src_holds D src rd1.ilen).bind (fun v hv => ?_)
      refine (write_dst_holds D hD dst olen v hF).bind (fun dst1 hw => ?_)
      have hu2 : unread_bits src { rd1 with ilen := rd1.ilen + 1 } + 8 = unread_bits src rd1 := by
        simp only [unread_bits]; omega
      refine (ih _ dst1 _ hw.2 (by omega)).mono ?_ (fun _ h => h)
      rintro ⟨rd', dst', olen'⟩ ⟨h1, h2, h3⟩
      exact ⟨h1, by simp only at h2 ⊢; omega, h3⟩
    · exact ⟨hF, by simp only; omega, hle⟩

theorem offset_loop_holds (D : Nat) (src : List Byte) :
    ∀ (fuel : Nat) (rd : Reader) (m_off : Nat), unread_bits src rd < fuel →
      Holds (fun r => r.1 < U32 ∧ unread_bits src r.2 < unread_bits src rd ∧
          r.2.ilen ≤ src.length)
        (Benign D) (offset_loop src fuel rd m_off) := by
  intro fuel
  induction fuel with
  | zero => intro rd m_off h; omega
  | succ fuel ih =>
    intro rd m_off hfuel
    unfold offset_loop
    refine (get_bit_benign D src rd).bind ?_
    rintro ⟨a, rd1⟩ ⟨-, hu1, -, -⟩
    refine (get_bit_benign D src rd1).bind ?_
    rintro ⟨t, rd2⟩ ⟨-, hu2, -, hle2⟩
    simp only at hu1 hu2 hle2 ⊢
    split
    · exact ⟨Nat.mod_lt _ (by decide), by simp only; omega, hle2⟩
    · refine (get_bit_benign D src rd2).bind ?_
      rintro ⟨c, rd3⟩ ⟨-, hu3, -, -⟩
      simp only at hu3 ⊢
      refine (ih rd3 _ (by omega)).mono ?_ (fun _ h => h)
      rintro ⟨m, rd'⟩ ⟨h1, h2, h3⟩
      exact ⟨h1, by simp only at h2 ⊢; omega, h3⟩

theorem length_loop_holds (D : Nat) (src : List Byte) :
    ∀ (fuel : Nat) (rd : Reader) (m_len : Nat), unread_bits src rd < fuel →
      Holds (fun r => r.1 < U32 ∧ unread_bits src r.2 < unread_bits src rd ∧
          r.2.ilen ≤ src.length)
        (Benign D) (length_loop src fuel rd m_len) := by
  intro fuel
  induction fuel with
  | zero => intro rd m_len h; omega
  | succ fuel ih =>
    intro rd m_len hfuel
    unfold length_loop
    refine (get_bit_benign D src rd).bind ?_
    rintro ⟨a, rd1⟩ ⟨-, hu1, -, -⟩
    refine (get_bit_benign D src rd1).bind ?_
    rintro ⟨t, rd2⟩ ⟨-, hu2, -, hle2⟩
    simp only at hu1 hu2 hle2 ⊢
    split
    · refine (ih rd2 _ (by omega)).mono ?_ (fun _ h => h)
      rintro ⟨m, rd'⟩ ⟨h1, h2, h3⟩
      exact ⟨h1, by simp only at h2 ⊢; omega, h3⟩
    · exact ⟨Nat.mod_lt _ (by decide), by simp only; omega, hle2⟩

theorem length_decode_holds (D : Nat) (src : List Byte) (fuel : Nat) (rd : Reader)
    (m_len : Nat) (hfuel : unread_bits src rd < fuel) :
    Holds (fun r => r.1 < U32 ∧ unread_bits src r.2 < unread_bits src rd ∧
        r.2.ilen ≤ src.length)
      (Benign D) (length_decode src fuel rd m_len) := by
  unfold length_decode
  split
  · refine (get_bit_benign D src rd).bind ?_
    rintro ⟨b, rd1⟩ ⟨hb, hu1, -, hle1⟩
    simp only at hb hu1 hle1 ⊢
    exact ⟨by simp only [U32]; omega, by simp only; omega, hle1⟩
  · refine (get_bit_benign D src rd).bind ?_
    rintro ⟨t, rd1⟩ ⟨-, hu1, -, -⟩
    simp only at hu1 ⊢
    split
    · refine (get_bit_benign D src rd1).bind ?_
      rintro ⟨b, rd2⟩ ⟨hb, hu2, -, hle2⟩
      simp only at hb hu2 hle2 ⊢
      exact ⟨by simp only [U32]; omega, by simp only; omega, hle2⟩
    · refine (length_loop_holds D src fuel rd1 _ (by omega)).bind ?_
      rintro ⟨m, rd2⟩ ⟨-, hu2, hle2⟩
      simp only at hu2 hle2 ⊢
      exact ⟨Nat.mod_lt _ (by decide), by simp only; omega, hle2⟩

theorem offset_decode_holds (D : Nat) (src : List Byte) (rd : Reader) (m_off last_m_off : Nat) :
    Holds (fun r => unread_bits src r.reader < unread_bits src rd ∧
        r.reader.ilen ≤ src.length)
      (Benign D) (offset_decode src rd m_off last_m_off) := by
  unfold offset_decode
  split
  · refine (get_bit_benign D src rd).bind ?_
    rintro ⟨b, rd1⟩ ⟨-, hu1, -, hle1⟩
    simp only at hu1 hle1 ⊢
    exact ⟨by simp only [Offset.reader]; omega, hle1⟩
  · refine (read_src_holds D src rd.ilen).bind (fun b hb => ?_)
    have hu : unread_bits src { rd with ilen := rd.ilen + 1 } + 8 = unread_bits src rd := by
      simp only [unread_bits]; omega
    simp only
    split
    · exact ⟨by simp only [Offset.reader]; omega, hb⟩
    · exact ⟨by simp only [Offset.reader]; omega, hb⟩

theorem copy_byte_holds (D : Nat) (hD : D < U32) (dst : List Byte) (olen m_pos : Nat)
    (h : Filled D dst olen) :
    Holds (fun r => Filled D r.1 r.2.1 ∧ r.2.1 = olen + 1) (Benign D)
      (copy_byte dst olen m_pos) := by
  unfold copy_byte
  refine (read_dst_holds D dst m_pos).bind (fun v _ => ?_)
  refine (write_dst_holds D hD dst olen v h).bind (fun dst1 hw => ?_)
  have : (olen + 1) % U32 = olen + 1 := Nat.mod_eq_of_lt (by omega)
  exact ⟨hw.2, this⟩

theorem copy_loop_holds (D : Nat) (hD : D < U32) :
    ∀ (fuel : Nat) (dst : List Byte) (olen m_pos m_len : Nat),
      Filled D dst olen → m_len < U32 → (if m_len = 0 then U32 else m_len) ≤ fuel →
      Holds (fun r => Filled D r.1 r.2 ∧ olen < r.2) (Benign D)
        (copy_loop fuel dst olen m_pos m_len) := by
  intro fuel
  induction fuel with
  | zero =>
    intro dst olen m_pos m_len _ _ h
    split at h
    · simp [U32] at h
    · omega
  | succ fuel ih =>
    intro dst olen m_pos m_len hF hm hfuel
    unfold copy_loop
    refine (copy_byte_holds D hD dst olen m_pos hF).bind ?_
    intro r hr
    obtain ⟨dst1, olen1, m_pos1⟩ := r
    have hF1 : Filled D dst1 olen1 := hr.1
    have ho1 : olen1 = olen + 1 := hr.2
    have hq : (m_len + U32 - 1) % U32 + 1 = if m_len = 0 then U32 else m_len := by
      by_cases h0 : m_len = 0
      · subst h0; rfl
      · have : m_len + U32 - 1 = (m_len - 1) + U32 := by omega
        rw [if_neg h0, this, Nat.add_mod_right, Nat.mod_eq_of_lt (by omega)]
        omega
    simp only []
    generalize (m_len + U32 - 1) % U32 = q at hq ⊢
    by_cases hpos : q > 0
    · rw [if_pos hpos]
      have hlt : q < U32 := by split at hq <;> omega
      refine (ih dst1 olen1 m_pos1 q hF1 hlt ?_).mono ?_ (fun _ h => h)
      · have hne : q ≠ 0 := by omega
        rw [if_neg hne]
        omega
      · rintro ⟨d, o⟩ ⟨h1, h2⟩
        exact ⟨h1, by simp only at h2 ⊢; omega⟩
    · rw [if_neg hpos]
      exact ⟨hF1, by simp only; omega⟩

theorem copy_step_holds (D : Nat) (hD : D < U32) (dst : List Byte) (olen m_off m_len : Nat)
    (hF : Filled D dst olen) (hm : m_len < U32) :
    Holds (fun r => Filled D r.1 r.2) (Benign D) (copy_step dst olen m_off m_len) := by
  unfold copy_step
  refine (copy_byte_holds D hD dst olen _ hF).bind ?_
  rintro ⟨dst1, olen1, m_pos1⟩ ⟨hF1, -⟩
  simp only at hF1 ⊢
  refine (copy_loop_holds D hD U32 dst1 olen1 m_pos1 m_len hF1 hm ?_).mono
    (fun _ h => h.1) (fun _ h => h)
  split
  · exact Nat.le_refl _
  · omega

theorem main_loop_holds (D : Nat) (hD : D < U32) (src : List Byte) (budget : Nat) :
    ∀ (fuel : Nat) (st : Decoder), Filled D st.dst st.olen →
      unread_bits src st.rd < fuel → unread_bits src st.rd < budget →
      Holds (fun r => Filled D r.2.dst r.2.olen) (Benign D) (main_loop src budget fuel st) := by
  intro fuel
  induction fuel with
  | zero => intro st _ h; omega
  | succ fuel ih =>
    intro st hF hfuel hbudget
    unfold main_loop
    split
    · simp only
      refine (literal_loop_holds D hD src budget st.rd st.dst st.olen hF hbudget).bind ?_
      rintro ⟨rd1, dst1, olen1⟩ ⟨hF1, hu1, -⟩
      simp only at hF1 hu1 ⊢
      refine (offset_loop_holds D src budget rd1 1 (by omega)).bind ?_
      rintro ⟨m_off, rd2⟩ ⟨-, hu2, -⟩
      simp only at hu2 ⊢
      refine (offset_decode_holds D src rd2 m_off st.last_m_off).bind ?_
      rintro (rd3 | ⟨rd3, m_off3, m_len3, lmo⟩) ⟨hu3, -⟩
      · exact hF1
      · simp only [Offset.reader] at hu3 ⊢
        refine (length_decode_holds D src budget rd3 m_len3 (by omega)).bind ?_
        rintro ⟨m_len4, rd4⟩ ⟨-, hu4, -⟩
        simp only at hu4 ⊢
        refine (copy_step_holds D hD dst1 olen1 m_off3 _ hF1
          (Nat.mod_lt _ (by decide))).bind ?_
        rintro ⟨dst5, olen5⟩ hF5
        simp only at hF5 ⊢
        exact ih _ hF5 (by simp only; omega) (by simp only; omega)
    · exact hF

theorem read_dest_size_eq (b0 b1 b2 b3 : Byte) (rest : List Byte) :
    read_dest_size (b0 :: b1 :: b2 :: b3 :: rest)
      = .ok (b0.val + 256 * b1.val + 65536 * b2.val + 16777216 * b3.val) := by
  have h0 := b0.isLt
  have h1 := b1.isLt
  have h2 := b2.isLt
  have h3 := b3.isLt
  have e1 : b0.val ||| b1.val <<< 8 = 2 ^ 8 * b1.val + b0.val := by
    rw [Nat.lor_comm, Nat.shiftLeft_eq, Nat.mul_comm]
    exact (Nat.mul_add_lt_is_or (by omega) _).symm
  have e2 : 2 ^ 8 * b1.val + b0.val ||| b2.val <<< 16
      = 2 ^ 16 * b2.val + (2 ^ 8 * b1.val + b0.val) := by
    rw [Nat.lor_comm, Nat.shiftLeft_eq, Nat.mul_comm]
    exact (Nat.mul_add_lt_is_or (by omega) _).symm
  have e3 : 2 ^ 16 * b2.val + (2 ^ 8 * b1.val + b0.val) ||| b3.val <<< 24
      = 2 ^ 24 * b3.val + (2 ^ 16 * b2.val + (2 ^ 8 * b1.val + b0.val)) := by
    rw [Nat.lor_comm, Nat.shiftLeft_eq, Nat.mul_comm]
    exact (Nat.mul_add_lt_is_or (by omega) _).symm
  have : read_dest_size (b0 :: b1 :: b2 :: b3 :: rest)
      = .ok (b0.val ||| b1.val <<< 8 ||| b2.val <<< 16 ||| b3.val <<< 24) := by
    simp [read_dest_size, read_src, bind, Except.bind, pure, Except.pure]
  rw [this, e1, e2, e3]
  congr 1
  omega

theorem read_dest_size_holds (src : List Byte) :
    Holds (fun D => D < U32) (fun e => ∃ i, e = .srcIndex i) (read_dest_size src) := by
  match src with
  | b0 :: b1 :: b2 :: b3 :: rest =>
    rw [read_dest_size_eq]
    have h0 := b0.isLt
    have h1 := b1.isLt
    have h2 := b2.isLt
    have h3 := b3.isLt
    show _ < U32
    simp only [U32]
    omega
  | [] => exact ⟨0, rfl⟩
  | [_] => exact ⟨1, rfl⟩
  | [_, _] => exact ⟨2, rfl⟩
  | [_, _, _] => exact ⟨3, rfl⟩

theorem filled_replicate (D : Nat) : Filled D (List.replicate D 0) 0 := by
  refine ⟨by simp, Nat.zero_le _, fun i _ hi => ?_⟩
  rw [List.getElem?_replicate]
  simp [hi]

/-- Every run of `decompress_NRV2E` that returns leaves a buffer of `dest_size` bytes with the
write cursor inside it and zeros from the cursor on; the budget of the embedding never runs
out, and a write outside the buffer can only be at index `dest_size`. -/
theorem decompress_run_holds (rd : Reader) (src : List Byte) :
    Holds (fun r => ∃ D, read_dest_size src = .ok D ∧ Filled D r.2.dst r.2.olen)
      (fun e => e ≠ .fuel ∧ ∀ i, e = .dstWrite i → read_dest_size src = .ok i)
      (decompress_run rd src) := by
  unfold decompress_run
  have hds := read_dest_size_holds src
  cases hsz : read_dest_size src with
  | error e =>
    rw [hsz] at hds
    obtain ⟨i, rfl⟩ := hds
    exact ⟨fun h => (nomatch h), fun _ h => (nomatch h)⟩
  | ok D =>
    rw [hsz] at hds
    have hD : D < U32 := hds
    refine ((main_loop_holds D hD src _ _ _ (filled_replicate D) (Nat.lt_succ_self _)
      (Nat.lt_succ_self _)).mono (fun r h => ⟨D, rfl, h⟩) (fun e h => ⟨h.1, fun i hi => ?_⟩))
    rw [h.2 i hi]

/-! ## The copy step -/

theorem u32_sub_wrap (a b : Nat) (hb : b ≤ a) (ha : a < U32) : (a + U32 - b) % U32 = a - b := by
  have : a + U32 - b = (a - b) + U32 := by omega
  rw [this, Nat.add_mod_right]
  exact Nat.mod_eq_of_lt (by omega)

theorem copy_byte_pattern (dst : List Byte) (olen m_off : Nat) (d : List Byte) (j : Nat)
    (h1 : 1 ≤ m_off) (h2 : m_off ≤ olen) (hlen : olen + j < dst.length)
    (hU : dst.length < U32) (hP : Pattern dst olen m_off d j) :
    ∃ d', copy_byte d (olen + j) (olen - m_off + j)
        = .ok (d', olen + j + 1, olen - m_off + j + 1) ∧
      Pattern dst olen m_off d' (j + 1) := by
  obtain ⟨hl, hnew, hold⟩ := hP
  have hpos : olen - m_off + j < d.length := by omega
  have hsrc : d[olen - m_off + j]? = dst[olen - m_off + j % m_off]? := by
    rcases Nat.lt_or_ge j m_off with hj | hj
    · rw [Nat.mod_eq_of_lt hj]
      exact hold _ (Or.inl (by omega))
    · have e1 : olen - m_off + j = olen + (j - m_off) := by omega
      have e2 : (j - m_off) % m_off = j % m_off := by
        conv_rhs => rw [show j = (j - m_off) + m_off by omega, Nat.add_mod_right]
      rw [e1, hnew (j - m_off) (by omega), e2]
  refine ⟨d.set (olen + j) d[olen - m_off + j], ?_, ?_, ?_, ?_⟩
  · have hw : olen + j < d.length := by omega
    simp only [copy_byte, read_dst, write_dst, List.getElem?_eq_getElem hpos, hw, if_true,
      bind, Except.bind, pure, Except.pure]
    rw [Nat.mod_eq_of_lt (by omega), Nat.mod_eq_of_lt (by omega)]
  · simp [hl]
  · intro i hi
    rw [List.getElem?_set]
    by_cases hij : i = j
    · subst hij
      simp only [if_true]
      rw [if_pos (by omega), ← hsrc, List.getElem?_eq_getElem hpos]
    · rw [if_neg (by omega)]
      exact hnew i (by omega)
  · intro x hx
    rw [List.getElem?_set, if_neg (by omega)]
    exact hold x (by omega)

theorem copy_loop_pattern (dst : List Byte) (olen m_off : Nat)
    (h1 : 1 ≤ m_off) (h2 : m_off ≤ olen) (hU : dst.length < U32) :
    ∀ (fuel : Nat) (d : List Byte) (j r : Nat), 1 ≤ r → r ≤ fuel →
      olen + j + r ≤ dst.length → Pattern dst olen m_off d j →
      ∃ d', copy_loop fuel d (olen + j) (olen - m_off + j) r = .ok (d', olen + j + r) ∧
        Pattern dst olen m_off d' (j + r) := by
  intro fuel
  induction fuel with
  | zero => intro d j r hr hf; omega
  | succ fuel ih =>
    intro d j r hr hf hlen hP
    obtain ⟨d1, hc, hP1⟩ := copy_byte_pattern dst olen m_off d j h1 h2 (by omega) hU hP
    have hq : (r + U32 - 1) % U32 = r - 1 := u32_sub_wrap r 1 hr (by omega)
    unfold copy_loop
    simp only [hc, bind, Except.bind]
    rw [hq]
    by_cases hpos : r - 1 > 0
    · rw [if_pos hpos]
      obtain ⟨d', hc', hP'⟩ := ih d1 (j + 1) (r - 1) (by omega) (by omega) (by omega) hP1
      have e1 : olen + (j + 1) = olen + j + 1 := by omega
      have e2 : olen - m_off + (j + 1) = olen - m_off + j + 1 := by omega
      have e3 : olen + j + 1 + (r - 1) = olen + j + r := by omega
      have e4 : j + 1 + (r - 1) = j + r := by omega
      rw [e1, e2, e3] at hc'
      rw [e4] at hP'
      exact ⟨d', hc', hP'⟩
    · rw [if_neg hpos]
      have e : r = 1 := by omega
      subst e
      exact ⟨d1, rfl, hP1⟩

/-! ## Streams laid out from events -/

theorem bits_val_lt : ∀ (k : Nat) (bs : List Bool), bits_val k bs < 2 ^ k
  | 0, _ => by simp [bits_val]
  | k + 1, [] => by simp [bits_val]
  | k + 1, b :: bs => by
    have := bits_val_lt k bs
    have hb : b.toNat ≤ 1 := Bool.toNat_le b
    simp only [bits_val, Nat.pow_succ]
    rcases Nat.le_one_iff_eq_zero_or_eq_one.mp hb with h | h <;> rw [h] <;> omega

theorem pack_byte_val (bs : List Bool) : (pack_byte bs).val = bits_val 8 bs := by
  have := bits_val_lt 8 bs
  simp only [pack_byte, Fin.ofNat]
  exact Nat.mod_eq_of_lt this

theorem bits_append_raw (evs : List Event) (v : Byte) :
    Event.bits (evs ++ [.raw v]) = Event.bits evs := by
  induction evs with
  | nil => rfl
  | cons e evs ih =>
    cases e with
    | bit b =>
      show b :: Event.bits (evs ++ [.raw v]) = b :: Event.bits evs
      rw [ih]
    | raw w => exact ih

theorem layout_append_raw_ne_nil (evs : List Event) (v : Byte) :
    ∀ avail, layout avail (evs ++ [.raw v]) ≠ [] := by
  induction evs with
  | nil => intro avail; simp [layout]
  | cons e evs ih =>
    intro avail
    cases e with
    | raw w => simp [layout]
    | bit b =>
      cases avail with
      | zero => simp [layout]
      | succ a => simpa [layout] using ih a

theorem getElem?_append_cons (pre : List Byte) (w : Byte) (rest : List Byte) :
    (pre ++ w :: rest)[pre.length]? = some w := by
  rw [List.getElem?_append_right (Nat.le_refl _)]
  simp

/-- The next bit of a byte that carries `b` followed by `a` more bits. -/
theorem top_bit (x a b r : Nat) (hb : b ≤ 1) (hr : r < 2 ^ a)
    (h : x % 2 ^ (a + 1) = b * 2 ^ a + r) : (x >>> a) &&& 1 = b ∧ x % 2 ^ a = r := by
  rw [Nat.and_one_is_mod, Nat.shiftRight_eq_div_pow]
  rw [Nat.mod_pow_succ] at h
  have hu : x % 2 ^ a < 2 ^ a := Nat.mod_lt _ (Nat.two_pow_pos a)
  have hq : x / 2 ^ a % 2 < 2 := Nat.mod_lt _ (by decide)
  generalize x % 2 ^ a = u at h hu ⊢
  generalize x / 2 ^ a % 2 = q at h hq ⊢
  generalize 2 ^ a = p at h hu hr ⊢
  have hq' : q = 0 ∨ q = 1 := by omega
  have hb' : b = 0 ∨ b = 1 := by omega
  rcases hq' with rfl | rfl <;> rcases hb' with rfl | rfl <;> simp at h <;> omega

theorem layout_reads (v : Byte) : ∀ (evs : List Event) (avail : Nat) (pre : List Byte) (c : Byte),
    c.val % 2 ^ avail = bits_val avail (Event.bits evs) →
    ∃ rd', Reads (pre ++ layout avail (evs ++ [.raw v])) ⟨pre.length, avail, c⟩
        (evs ++ [.raw v]) rd' ∧
      rd'.ilen = (pre ++ layout avail (evs ++ [.raw v])).length := by
  intro evs
  induction evs with
  | nil =>
    intro avail pre c _
    refine ⟨_, ⟨?_, rfl⟩, ?_⟩
    · simp only [List.nil_append, layout, read_src, getElem?_append_cons]
    · simp [layout]
  | cons e evs ih =>
    intro avail pre c hc
    cases e with
    | raw w =>
      obtain ⟨rd', h, hi⟩ := ih avail (pre ++ [w]) c hc
      refine ⟨rd', ⟨?_, ?_⟩, ?_⟩
      · simp only [List.cons_append, layout, read_src, getElem?_append_cons]
      · simpa [layout] using h
      · rw [hi]; simp [layout]
    | bit b =>
      cases avail with
      | zero =>
        have hlt := bits_val_lt 7 (Event.bits evs)
        have hval : (pack_byte (b :: Event.bits (evs ++ [.raw v]))).val
            = b.toNat * 2 ^ 7 + bits_val 7 (Event.bits evs) := by
          rw [pack_byte_val, bits_append_raw]; rfl
        show ∃ rd', Reads
          (pre ++ pack_byte (b :: Event.bits (evs ++ [.raw v])) :: layout 7 (evs ++ [.raw v]))
          ⟨pre.length, 0, c⟩ (.bit b :: (evs ++ [.raw v])) rd' ∧
          rd'.ilen = (pre ++ pack_byte (b :: Event.bits (evs ++ [.raw v]))
            :: layout 7 (evs ++ [.raw v])).length
        generalize pack_byte (b :: Event.bits (evs ++ [.raw v])) = P at hval ⊢
        have hmod : P.val % 2 ^ (7 + 1) = b.toNat * 2 ^ 7 + bits_val 7 (Event.bits evs) := by
          rw [← hval]; exact Nat.mod_eq_of_lt P.isLt
        have htop := top_bit P.val 7 b.toNat (bits_val 7 (Event.bits evs)) (Bool.toNat_le b) hlt
          hmod
        obtain ⟨rd', h, hi⟩ := ih 7 (pre ++ [P]) P htop.2
        refine ⟨rd', ⟨⟨pre.length + 1, 7, P⟩, ?_, ?_⟩, ?_⟩
        · rw [← htop.1]
          exact get_bit_load _ _ _ _ (getElem?_append_cons pre P _)
        · simpa using h
        · rw [hi]; simp
      | succ a =>
        have hlt := bits_val_lt a (Event.bits evs)
        have htop := top_bit c.val a b.toNat (bits_val a (Event.bits evs)) (Bool.toNat_le b) hlt
          (by rw [hc]; rfl)
        obtain ⟨rd', h, hi⟩ := ih a pre c htop.2
        refine ⟨rd', ⟨⟨pre.length, a, c⟩, ?_, ?_⟩, ?_⟩
        · rw [← htop.1]
          have hne := layout_append_raw_ne_nil evs v a
          have hlen : 0 < (layout a (evs ++ [.raw v])).length := List.length_pos.mpr hne
          refine get_bit_buffered _ ⟨pre.length, a + 1, c⟩ ?_ (Nat.succ_pos a)
          show pre.length < (pre ++ layout a (evs ++ [.raw v])).length
          rw [List.length_append]; omega
        · simpa [layout] using h
        · rw [hi]; simp [layout]

/-! ## Decoding a literal-only body -/

theorem literal_loop_reads (src : List Byte) (tail : List Event) :
    ∀ (L : List Byte) (fuel : Nat) (rd rd_end : Reader) (pre zs : List Byte),
      L.length < fuel → L.length ≤ zs.length → (pre ++ zs).length < U32 →
      Reads src rd (literal_flags L ++ tail) rd_end →
      ∃ rd1, literal_loop src fuel rd (pre ++ zs) pre.length
          = .ok (rd1, pre ++ L ++ zs.drop L.length, pre.length + L.length) ∧
        Reads src rd1 (end_marker_code.map .bit ++ tail) rd_end := by
  intro L
  induction L with
  | nil =>
    intro fuel rd rd_end pre zs hf _ _ h
    obtain ⟨rd1, hg, h⟩ := h
    cases fuel with
    | zero => omega
    | succ fuel =>
      refine ⟨rd1, ?_, h⟩
      unfold literal_loop
      simp [hg, bind, Except.bind, pure, Except.pure]
  | cons v L ih =>
    intro fuel rd rd_end pre zs hf hz hU h
    obtain ⟨rd1, hg, hr, h⟩ := h
    cases fuel with
    | zero => omega
    | succ fuel =>
      cases zs with
      | nil => simp at hz
      | cons z zs =>
        simp only [List.length_cons, List.length_append] at hf hz hU
        obtain ⟨rd2, hl, h2⟩ := ih fuel _ rd_end (pre ++ [v]) zs (by omega) (by omega)
          (by simp only [List.length_append, List.length_cons, List.length_nil]; omega) h
        refine ⟨rd2, ?_, h2⟩
        unfold literal_loop
        have hw : write_dst (pre ++ z :: zs) pre.length v = .ok (pre ++ [v] ++ zs) := by
          simp [write_dst]
        have hmod : (pre.length + 1) % U32 = (pre ++ [v]).length := by
          rw [Nat.mod_eq_of_lt (by omega)]; simp
        simp only [hg, hr, hw, hmod, bind, Except.bind, Bool.toNat_true, if_true]
        rw [hl]
        simp [Nat.add_assoc, Nat.add_comm 1]

theorem offset_loop_continue (src : List Byte) (fuel : Nat) (rd rd_end : Reader)
    (m m' : Nat) (a c : Bool) (evs : List Event)
    (hm : (((m * 2 + a.toNat) % U32 + U32 - 1) % U32 * 2 + c.toNat) % U32 = m')
    (h : Reads src rd (.bit a :: .bit false :: .bit c :: evs) rd_end) :
    ∃ rd3, offset_loop src (fuel + 1) rd m = offset_loop src fuel rd3 m' ∧
      Reads src rd3 evs rd_end := by
  obtain ⟨rd1, h1, rd2, h2, rd3, h3, h⟩ := h
  refine ⟨rd3, ?_, h⟩
  conv_lhs => unfold offset_loop
  simp [h1, h2, h3, bind, Except.bind, hm]

theorem offset_loop_stop (src : List Byte) (fuel : Nat) (rd rd_end : Reader)
    (m m' : Nat) (a : Bool) (evs : List Event)
    (hm : (m * 2 + a.toNat) % U32 = m')
    (h : Reads src rd (.bit a :: .bit true :: evs) rd_end) :
    ∃ rd2, offset_loop src (fuel + 1) rd m = .ok (m', rd2) ∧ Reads src rd2 evs rd_end := by
  obtain ⟨rd1, h1, rd2, h2, h⟩ := h
  refine ⟨rd2, ?_, h⟩
  unfold offset_loop
  simp [h1, h2, bind, Except.bind, hm, pure, Except.pure]

theorem offset_loop_end_marker (src : List Byte) (fuel : Nat) (rd rd_end : Reader)
    (tail : List Event) (hf : 13 ≤ fuel)
    (h : Reads src rd (end_marker_code.map .bit ++ tail) rd_end) :
    ∃ rd2, offset_loop src fuel rd 1 = .ok (0x01000002, rd2) ∧ Reads src rd2 tail rd_end := by
  obtain ⟨f, rfl⟩ : ∃ f, fuel = f + 13 := ⟨fuel - 13, by omega⟩
  obtain ⟨r1, e1, h⟩ := offset_loop_continue src (f + 12) rd rd_end 1 2 false false _
    (by decide) h
  obtain ⟨r2, e2, h⟩ := offset_loop_continue src (f + 11) r1 rd_end 2 8 true false _
    (by decide) h
  obtain ⟨r3, e3, h⟩ := offset_loop_continue src (f + 10) r2 rd_end 8 32 true false _
    (by decide) h
  obtain ⟨r4, e4, h⟩ := offset_loop_continue src (f + 9) r3 rd_end 32 128 true false _
    (by decide) h
  obtain ⟨r5, e5, h⟩ := offset_loop_continue src (f + 8) r4 rd_end 128 512 true false _
    (by decide) h
  obtain ⟨r6, e6, h⟩ := offset_loop_continue src (f + 7) r5 rd_end 512 2048 true false _
    (by decide) h
  obtain ⟨r7, e7, h⟩ := offset_loop_continue src (f + 6) r6 rd_end 2048 8192 true false _
    (by decide) h
  obtain ⟨r8, e8, h⟩ := offset_loop_continue src (f + 5) r7 rd_end 8192 32768 true false _
    (by decide) h
  obtain ⟨r9, e9, h⟩ := offset_loop_continue src (f + 4) r8 rd_end 32768 131072 true false _
    (by decide) h
  obtain ⟨r10, e10, h⟩ := offset_loop_continue src (f + 3) r9 rd_end 131072 524288 true false _
    (by decide) h
  obtain ⟨r11, e11, h⟩ := offset_loop_continue src (f + 2) r10 rd_end 524288 2097152 true false _
    (by decide) h
  obtain ⟨r12, e12, h⟩ := offset_loop_continue src (f + 1) r11 rd_end 2097152 8388609 true true _
    (by decide) h
  obtain ⟨r13, e13, h⟩ := offset_loop_stop src f r12 rd_end 8388609 0x01000002 false _
    (by decide) h
  exact ⟨r13, by rw [e1, e2, e3, e4, e5, e6, e7, e8, e9, e10, e11, e12, e13], h⟩

theorem main_loop_literal_body (src : List Byte) (budget fuel : Nat) (L zs : List Byte)
    (rd rd_end : Reader) (lmo : Nat) (hi : rd.ilen < src.length) (hb : L.length < budget)
    (hb13 : 13 ≤ budget) (hz : L.length ≤ zs.length) (hU : zs.length < U32)
    (h : Reads src rd (literal_events L) rd_end) :
    main_loop src budget (fuel + 1) { rd := rd, dst := zs, olen := 0, last_m_off := lmo }
      = .ok (.marker,
          { rd := rd_end, dst := L ++ zs.drop L.length, olen := L.length, last_m_off := lmo }) := by
  obtain ⟨rd1, hl, h⟩ := literal_loop_reads src [.raw 0xFF] L budget rd rd_end [] zs hb hz
    (by simpa using hU) h
  obtain ⟨rd2, ho, hr, hend⟩ := offset_loop_end_marker src budget rd1 rd_end _ hb13 h
  have hend' : rd_end = { rd2 with ilen := rd2.ilen + 1 } := hend
  simp only [List.nil_append, List.length_nil, Nat.zero_add] at hl
  unfold main_loop
  simp only [hi, if_true, hl, ho, bind, Except.bind, offset_decode, hr]
  subst hend'
  rfl

theorem layout_length_ge : ∀ (evs : List Event) (avail : Nat),
    evs.length ≤ 8 * (layout avail evs).length + avail := by
  intro evs
  induction evs with
  | nil => intro avail; simp
  | cons e evs ih =>
    intro avail
    cases e with
    | raw w =>
      have := ih avail
      simp only [layout, List.length_cons]; omega
    | bit b =>
      cases avail with
      | zero =>
        have := ih 7
        simp only [layout, List.length_cons]; omega
      | succ a =>
        have := ih a
        simp only [layout, List.length_cons]; omega

theorem literal_flags_length (L : List Byte) : (literal_flags L).length = 2 * L.length + 39 := by
  induction L with
  | nil => rfl
  | cons v L ih => simp only [literal_flags, List.length_cons, ih]; omega

theorem read_dest_size_header (n : Nat) (hn : n < U32) (body : List Byte) :
    read_dest_size (header n ++ body) = .ok n := by
  show read_dest_size (_ :: _ :: _ :: _ :: body) = _
  rw [read_dest_size_eq]
  simp only [Fin.ofNat, Fin.val_mk, U32] at hn ⊢
  congr 1
  omega

theorem layout_raw (avail : Nat) (v : Byte) (evs : List Event) :
    layout avail (.raw v :: evs) = v :: layout avail evs := by
  cases avail <;> rfl

theorem layout_length_literals : ∀ (L : List Byte) (avail : Nat),
    L.length + 1 ≤ (layout avail (literal_events L)).length := by
  intro L
  induction L with
  | nil =>
    intro avail
    have hne := layout_append_raw_ne_nil (literal_flags []) 0xFF avail
    have := List.length_pos.mpr hne
    simpa [literal_events] using this
  | cons v L ih =>
    intro avail
    cases avail with
    | zero =>
      have := ih 7
      unfold literal_events at this
      show L.length + 1 + 1
        ≤ (pack_byte (true :: Event.bits (.raw v :: (literal_flags L ++ [.raw 0xFF])))
            :: layout 7 (.raw v :: (literal_flags L ++ [.raw 0xFF]))).length
      rw [layout_raw]
      simp only [List.length_cons]
      omega
    | succ a =>
      have := ih a
      unfold literal_events at this
      show L.length + 1 + 1
        ≤ (layout a (.raw v :: (literal_flags L ++ [.raw 0xFF]))).length
      rw [layout_raw]
      simp only [List.length_cons]
      omega

theorem sized_stream_length (d : Nat) (L : List Byte) :
    (sized_stream d L).length = 4 + (layout 0 (literal_events L)).length := by
  simp only [sized_stream, List.length_append, header, List.length_cons, List.length_nil]

/-- Decoding the literal-only body of `L` behind a header that declares `d ≥ |L|` bytes, from
the initial reader state, ends at the end marker with the cursor at the end of the stream, the
write cursor at `|L|`, and the buffer equal to `L` followed by `d - |L|` zero bytes. -/
theorem decompress_run_sized_stream (d : Nat) (L : List Byte) (hd : d < U32)
    (hL : L.length ≤ d) :
    ∃ rd', rd'.ilen = (sized_stream d L).length ∧
      decompress_run Reader.initial (sized_stream d L)
        = .ok (.marker,
            { rd := rd', dst := L ++ List.replicate (d - L.length) 0, olen := L.length,
              last_m_off := 1 }) := by
  obtain ⟨rd', hreads, hilen⟩ := layout_reads 0xFF (literal_flags L) 0 (header d) 0
    (by simp [bits_val])
  have hlen := layout_length_ge (literal_events L) 0
  have hfl := literal_flags_length L
  have hev : (literal_events L).length = 2 * L.length + 40 := by
    simp only [literal_events, List.length_append, hfl, List.length_cons, List.length_nil]
  have hsrc := sized_stream_length d L
  refine ⟨rd', hilen, ?_⟩
  unfold decompress_run
  have hds : read_dest_size (sized_stream d L) = .ok d :=
    read_dest_size_header d hd _
  simp only [hds, bind, Except.bind]
  have hmain := main_loop_literal_body (sized_stream d L)
    (unread_bits (sized_stream d L) Reader.initial + 1)
    (unread_bits (sized_stream d L) Reader.initial) L (List.replicate d 0)
    Reader.initial rd' 1
    (by show 4 < _; omega)
    (by simp only [unread_bits, hsrc]; show L.length < 8 * (_ - 4) + 0 + 1; omega)
    (by simp only [unread_bits, hsrc]; show 13 ≤ 8 * (_ - 4) + 0 + 1; omega)
    (by simpa using hL) (by simpa using hd) hreads
  rw [hmain]
  simp

/-- Decoding the literal-only stream of `L` from the initial reader state ends at the end
marker with the buffer equal to `L`, the write cursor at its length and the cursor at the end
of the stream. -/
theorem decompress_run_literal_stream (L : List Byte) (hn : L.length < U32) :
    ∃ rd', rd'.ilen = (literal_stream L).length ∧
      decompress_run Reader.initial (literal_stream L)
        = .ok (.marker, { rd := rd', dst := L, olen := L.length, last_m_off := 1 }) := by
  obtain ⟨rd', hi, h⟩ := decompress_run_sized_stream L.length L hn (Nat.le_refl _)
  refine ⟨rd', hi, ?_⟩
  simpa [sized_stream, literal_stream] using h

/-! ## A run on a prefix of a stream -/

theorem Trunc.refl {α : Type} (r : Except Fault α) : Trunc r r :=
  Or.inr (Or.inr (Or.inr (Or.inr rfl)))

theorem Trunc.andThen {α β : Type} {x' x : Except Fault α} {f' f : α → Except Fault β}
    (hx : Trunc x' x) (hf : ∀ a, x' = .ok a → Trunc (f' a) (f a)) :
    Trunc (x' >>= f') (x >>= f) := by
  rcases hx with h | ⟨i, h⟩ | h | h | h
  · subst h; exact Or.inl rfl
  · subst h; exact Or.inr (Or.inl ⟨i, rfl⟩)
  · subst h; exact Or.inr (Or.inr (Or.inl rfl))
  · subst h; exact Or.inr (Or.inr (Or.inr (Or.inl rfl)))
  · subst h
    cases x' with
    | error e => exact Trunc.refl _
    | ok a => exact hf a rfl

theorem TruncMain.andThenMain {α : Type} {n : Nat} {x' x : Except Fault α}
    {f' f : α → Except Fault (Exit × Decoder)}
    (hx : Trunc x' x) (hf : ∀ a, x' = .ok a → TruncMain n (f' a) (f a)) :
    TruncMain n (x' >>= f') (x >>= f) := by
  rcases hx with h | ⟨i, h⟩ | h | h | h
  · subst h; exact Or.inl rfl
  · subst h; exact Or.inr (Or.inl ⟨i, rfl⟩)
  · subst h; exact Or.inr (Or.inr (Or.inl rfl))
  · subst h; exact Or.inr (Or.inr (Or.inr (Or.inl rfl)))
  · subst h
    cases x' with
    | error e => exact Or.inr (Or.inr (Or.inr (Or.inr (Or.inr ⟨rfl, fun st h => (nomatch h)⟩))))
    | ok a => exact hf a rfl

theorem read_src_trunc (s t : List Byte) (i : Nat) :
    Trunc (read_src s i) (read_src (s ++ t) i) := by
  rcases Nat.lt_or_ge i s.length with h | h
  · rw [read_src, read_src, List.getElem?_append_left h]
    exact Trunc.refl _
  · refine Or.inr (Or.inl ⟨i, ?_⟩)
    rw [read_src, List.getElem?_eq_none h]

theorem get_bit_trunc (s t : List Byte) (rd : Reader) :
    Trunc (get_bit s rd) (get_bit (s ++ t) rd) := by
  rcases Nat.lt_or_ge rd.ilen s.length with h | h
  · have h2 : ¬ rd.ilen ≥ (s ++ t).length := by rw [List.length_append]; omega
    have h1 : ¬ rd.ilen ≥ s.length := by omega
    have hr : read_src (s ++ t) rd.ilen = read_src s rd.ilen := by
      rw [read_src, read_src, List.getElem?_append_left h]
    unfold get_bit
    rw [if_neg h1, if_neg h2, hr]
    exact Trunc.refl _
  · exact Or.inl (get_bit_of_le s rd h)

theorem literal_loop_trunc (s t : List Byte) :
    ∀ (f' f : Nat) (rd : Reader) (dst : List Byte) (olen : Nat),
      Trunc (literal_loop s f' rd dst olen) (literal_loop (s ++ t) f rd dst olen) := by
  intro f'
  induction f' with
  | zero => intro f rd dst olen; exact Or.inr (Or.inr (Or.inl rfl))
  | succ f' ih =>
    intro f rd dst olen
    cases f with
    | zero => exact Or.inr (Or.inr (Or.inr (Or.inl rfl)))
    | succ f =>
      unfold literal_loop
      refine (get_bit_trunc s t rd).andThen ?_
      rintro ⟨b, rd1⟩ -
      simp only
      split
      · refine (read_src_trunc s t rd1.ilen).andThen (fun v _ => ?_)
        refine (Trunc.refl _).andThen (fun d _ => ?_)
        exact ih f _ d _
      · exact Trunc.refl _

theorem offset_loop_trunc (s t : List Byte) :
    ∀ (f' f : Nat) (rd : Reader) (m : Nat),
      Trunc (offset_loop s f' rd m) (offset_loop (s ++ t) f rd m) := by
  intro f'
  induction f' with
  | zero => intro f rd m; exact Or.inr (Or.inr (Or.inl rfl))
  | succ f' ih =>
    intro f rd m
    cases f with
    | zero => exact Or.inr (Or.inr (Or.inr (Or.inl rfl)))
    | succ f =>
      unfold offset_loop
      refine (get_bit_trunc s t rd).andThen ?_
      rintro ⟨a, rd1⟩ -
      refine (get_bit_trunc s t rd1).andThen ?_
      rintro ⟨b, rd2⟩ -
      simp only
      split
      · exact Trunc.refl _
      · refine (get_bit_trunc s t rd2).andThen ?_
        rintro ⟨c, rd3⟩ -
        exact ih f _ _

theorem length_loop_trunc (s t : List Byte) :
    ∀ (f' f : Nat) (rd : Reader) (m : Nat),
      Trunc (length_loop s f' rd m) (length_loop (s ++ t) f rd m) := by
  intro f'
  induction f' with
  | zero => intro f rd m; exact Or.inr (Or.inr (Or.inl rfl))
  | succ f' ih =>
    intro f rd m
    cases f with
    | zero => exact Or.inr (Or.inr (Or.inr (Or.inl rfl)))
    | succ f =>
      unfold length_loop
      refine (get_bit_trunc s t rd).andThen ?_
      rintro ⟨a, rd1⟩ -
      refine (get_bit_trunc s t rd1).andThen ?_
      rintro ⟨b, rd2⟩ -
      simp only
      split
      · exact ih f _ _
      · exact Trunc.refl _

theorem length_decode_trunc (s t : List Byte) (f' f : Nat) (rd : Reader) (m : Nat) :
    Trunc (length_decode s f' rd m) (length_decode (s ++ t) f rd m) := by
  unfold length_decode
  split
  · refine (get_bit_trunc s t rd).andThen ?_
    rintro ⟨a, rd1⟩ -
    exact Trunc.refl _
  · refine (get_bit_trunc s t rd).andThen ?_
    rintro ⟨a, rd1⟩ -
    simp only
    split
    · refine (get_bit_trunc s t rd1).andThen ?_
      rintro ⟨b, rd2⟩ -
      exact Trunc.refl _
    · refine (length_loop_trunc s t f' f rd1 _).andThen ?_
      rintro ⟨b, rd2⟩ -
      exact Trunc.refl _

theorem offset_decode_trunc (s t : List Byte) (rd : Reader) (m lmo : Nat) :
    Trunc (offset_decode s rd m lmo) (offset_decode (s ++ t) rd m lmo) := by
  unfold offset_decode
  split
  · refine (get_bit_trunc s t rd).andThen ?_
    rintro ⟨a, rd1⟩ -
    exact Trunc.refl _
  · refine (read_src_trunc s t rd.ilen).andThen (fun b _ => ?_)
    exact Trunc.refl _

theorem main_loop_trunc (s t : List Byte) (b' b : Nat) :
    ∀ (f' f : Nat) (st : Decoder),
      TruncMain s.length (main_loop s b' f' st) (main_loop (s ++ t) b f st) := by
  intro f'
  induction f' with
  | zero =>
    intro f st
    unfold main_loop
    by_cases h : st.rd.ilen < s.length
    · rw [if_pos h]; exact Or.inr (Or.inr (Or.inl rfl))
    · rw [if_neg h]
      exact Or.inr (Or.inr (Or.inr (Or.inr (Or.inl ⟨st, rfl, by omega⟩))))
  | succ f' ih =>
    intro f st
    by_cases h : st.rd.ilen < s.length
    · have h2 : st.rd.ilen < (s ++ t).length := by rw [List.length_append]; omega
      cases f with
      | zero =>
        refine Or.inr (Or.inr (Or.inr (Or.inl ?_)))
        unfold main_loop
        rw [if_pos h2]
      | succ f =>
        unfold main_loop
        rw [if_pos h, if_pos h2]
        simp only
        refine TruncMain.andThenMain (literal_loop_trunc s t b' b _ _ _) ?_
        rintro ⟨rd1, dst1, olen1⟩ -
        refine TruncMain.andThenMain (offset_loop_trunc s t b' b _ _) ?_
        rintro ⟨m_off, rd2⟩ -
        refine TruncMain.andThenMain (offset_decode_trunc s t _ _ _) ?_
        rintro (rd3 | ⟨rd3, m_off3, m_len3, lmo⟩) hod
        · refine Or.inr (Or.inr (Or.inr (Or.inr (Or.inr ⟨rfl, fun st' hst => ?_⟩))))
          have := (offset_decode_holds 0 s rd2 m_off st.last_m_off).ok hod
          cases hst
          exact this.2
        · refine TruncMain.andThenMain (length_decode_trunc s t b' b _ _) ?_
          rintro ⟨m_len4, rd4⟩ -
          refine TruncMain.andThenMain (Trunc.refl _) ?_
          rintro ⟨dst5, olen5⟩ -
          exact ih f _
    · unfold main_loop
      rw [if_neg h]
      exact Or.inr (Or.inr (Or.inr (Or.inr (Or.inl ⟨st, rfl, by omega⟩))))

theorem read_dest_size_append (s t : List Byte) (h : 4 ≤ s.length) :
    read_dest_size (s ++ t) = read_dest_size s := by
  match s, h with
  | b0 :: b1 :: b2 :: b3 :: rest, _ =>
    rw [read_dest_size_eq]
    show read_dest_size (b0 :: b1 :: b2 :: b3 :: (rest ++ t)) = _
    rw [read_dest_size_eq]

/-- A run on a prefix (of at least four bytes) of a stream against the run on the stream. -/
theorem decompress_run_trunc (rd : Reader) (s t : List Byte) (h : 4 ≤ s.length) :
    TruncMain s.length (decompress_run rd s) (decompress_run rd (s ++ t)) := by
  unfold decompress_run
  rw [read_dest_size_append s t h]
  refine TruncMain.andThenMain (Trunc.refl _) (fun D _ => ?_)
  exact main_loop_trunc s t _ _ _ _ _

/-! ## Faults of the copy step -/

theorem read_dest_size_ok_length (s : List Byte) (D : Nat) (h : read_dest_size s = .ok D) :
    4 ≤ s.length := by
  match s, h with
  | _ :: _ :: _ :: _ :: _, _ => simp
  | [], h => cases h
  | [_], h => cases h
  | [_, _], h => cases h
  | [_, _, _], h => cases h

/-- A run that reaches the end marker is not changed by bytes appended to the stream. -/
theorem decompress_run_append (rd : Reader) (s t : List Byte) (st : Decoder)
    (h : decompress_run rd s = .ok (.marker, st)) :
    decompress_run rd (s ++ t) = .ok (.marker, st) := by
  have h4 : 4 ≤ s.length := by
    obtain ⟨D, hD, -⟩ := (decompress_run_holds rd s).ok h
    exact read_dest_size_ok_length s D hD
  have hT := decompress_run_trunc rd s t h4
  rw [h] at hT
  rcases hT with h1 | ⟨i, h2⟩ | h3 | h4 | ⟨st', h5, -⟩ | ⟨h6, -⟩
  · cases h1
  · cases h2
  · cases h3
  · exact absurd rfl ((decompress_run_holds rd (s ++ t)).error h4).1
  · cases h5
  · exact h6.symm

/-! ## The offset decode and the passes of the main loop -/

/-- A pass of the main loop body that copies a match is one unfolding of `main_loop`. -/
theorem main_loop_match (src : List Byte) (budget fuel : Nat) (st st' : Decoder) (m_off : Nat)
    (hi : st.rd.ilen < src.length) (h : Match src budget st m_off st') :
    main_loop src budget (fuel + 1) st = main_loop src budget fuel st' := by
  obtain ⟨rd1, dst1, olen1, p, rd2, rd3, seed, lmo, m_len, rd4, dst5, olen5,
    h1, h2, h3, h4, h5, rfl⟩ := h
  conv_lhs => unfold main_loop
  simp only [hi, if_true, h1, h2, h3, h4, h5, bind, Except.bind]

theorem seed_of_parity (v : Nat) : (v ^^^ UMAX) &&& 1 = if v % 2 = 0 then 1 else 0 := by
  rw [Nat.and_one_is_mod, Nat.xor_mod_two_eq]
  simp only [UMAX]
  split <;> omega

/-- The fresh-offset case of the offset decode, with `v` the extended offset value. -/
theorem offset_decode_fresh (src : List Byte) (rd : Reader) (p lmo : Nat) (b : Byte)
    (hp : p ≠ 2) (hb : read_src src rd.ilen = .ok b) :
    offset_decode src rd p lmo
      = if ((p + U32 - 3) % U32 * 256 + b.val) % U32 = UMAX then
          .ok (.stop { rd with ilen := rd.ilen + 1 })
        else
          .ok (.go { rd with ilen := rd.ilen + 1 }
            (((p + U32 - 3) % U32 * 256 + b.val) % U32 / 2 + 1)
            (if ((p + U32 - 3) % U32 * 256 + b.val) % U32 % 2 = 0 then 1 else 0)
            (((p + U32 - 3) % U32 * 256 + b.val) % U32 / 2 + 1)) := by
  unfold offset_decode
  rw [if_neg hp]
  simp only [hb, bind, Except.bind]
  generalize hv : ((p + U32 - 3) % U32 * 256 + b.val) % U32 = v
  have hvlt : v < U32 := by rw [← hv]; exact Nat.mod_lt _ (by decide)
  by_cases hu : v = UMAX
  · rw [if_pos hu, if_pos hu]; rfl
  · rw [if_neg hu, if_neg hu]
    have h1 : (v >>> 1 + 1) % U32 = v / 2 + 1 := by
      rw [Nat.shiftRight_eq_div_pow]
      simp only [U32] at hvlt ⊢
      omega
    simp only [pure, Except.pure, h1, seed_of_parity]

/-- The repeat-offset case of the offset decode. -/
theorem offset_decode_repeat (src : List Byte) (rd : Reader) (lmo : Nat) :
    offset_decode src rd 2 lmo
      = (get_bit src rd >>= fun r => pure (.go r.2 lmo r.1 lmo)) := by
  unfold offset_decode
  rw [if_pos rfl]

/-- The offsets the offset decode hands out are between 1 and `2 ^ 31`. -/
theorem offset_decode_range (src : List Byte) (rd rd' : Reader) (p lmo m_off seed lmo' : Nat)
    (h1 : 1 ≤ lmo) (h2 : lmo ≤ 2 ^ 31)
    (h : offset_decode src rd p lmo = .ok (.go rd' m_off seed lmo')) :
    (1 ≤ m_off ∧ m_off ≤ 2 ^ 31) ∧ (1 ≤ lmo' ∧ lmo' ≤ 2 ^ 31) ∧ seed ≤ 1 := by
  by_cases hp : p = 2
  · subst hp
    rw [offset_decode_repeat] at h
    cases hg : get_bit src rd with
    | error e => rw [hg] at h; cases h
    | ok r =>
      have hb := ((get_bit_holds src rd).ok hg).1
      rw [hg] at h
      cases h
      exact ⟨⟨h1, h2⟩, ⟨h1, h2⟩, hb⟩
  · cases hb : read_src src rd.ilen with
    | error e =>
      unfold offset_decode at h
      rw [if_neg hp] at h
      simp only [hb, bind, Except.bind] at h
      cases h
    | ok b =>
      rw [offset_decode_fresh src rd p lmo b hp hb] at h
      generalize hv : ((p + U32 - 3) % U32 * 256 + b.val) % U32 = v at h
      have hvlt : v < U32 := by rw [← hv]; exact Nat.mod_lt _ (by decide)
      by_cases hu : v = UMAX
      · rw [if_pos hu] at h; cases h
      · rw [if_neg hu] at h
        cases h
        simp only [U32] at hvlt
        refine ⟨⟨by omega, by omega⟩, ⟨by omega, by omega⟩, ?_⟩
        split <;> omega

theorem bind_eq_ok {α β : Type} {x : Except Fault α} {f : α → Except Fault β} {b : β}
    (h : x >>= f = .ok b) : ∃ a, x = .ok a ∧ f a = .ok b := by
  cases x with
  | error e => cases h
  | ok a => exact ⟨a, rfl, h⟩

/-- The main loop keeps `last_m_off` between 1 and `2 ^ 31`. -/
theorem main_loop_last_m_off (src : List Byte) (budget : Nat) :
    ∀ (fuel : Nat) (st st' : Decoder) (e : Exit),
      1 ≤ st.last_m_off → st.last_m_off ≤ 2 ^ 31 →
      main_loop src budget fuel st = .ok (e, st') →
      1 ≤ st'.last_m_off ∧ st'.last_m_off ≤ 2 ^ 31 := by
  intro fuel
  induction fuel with
  | zero =>
    intro st st' e h1 h2 h
    unfold main_loop at h
    by_cases hi : st.rd.ilen < src.length
    · rw [if_pos hi] at h; cases h
    · rw [if_neg hi] at h; cases h; exact ⟨h1, h2⟩
  | succ fuel ih =>
    intro st st' e h1 h2 h
    unfold main_loop at h
    by_cases hi : st.rd.ilen < src.length
    · rw [if_pos hi] at h
      simp only at h
      obtain ⟨⟨rd1, dst1, olen1⟩, -, h⟩ := bind_eq_ok h
      obtain ⟨⟨p, rd2⟩, -, h⟩ := bind_eq_ok h
      obtain ⟨r, hod, h⟩ := bind_eq_ok h
      cases r with
      | stop rd3 => cases h; exact ⟨h1, h2⟩
      | go rd3 m_off seed lmo =>
        simp only at h
        obtain ⟨⟨m_len, rd4⟩, -, h⟩ := bind_eq_ok h
        obtain ⟨⟨dst5, olen5⟩, -, h⟩ := bind_eq_ok h
        have hr := offset_decode_range src rd2 rd3 p st.last_m_off m_off seed lmo h1 h2 hod
        exact ih _ st' e hr.2.1.1 hr.2.1.2 h
    · rw [if_neg hi] at h; cases h; exact ⟨h1, h2⟩

/-! ## The length of a match -/

theorem copy_byte_ok (dst : List Byte) (olen m_pos : Nat) (r : List Byte × Nat × Nat)
    (hU : dst.length < U32) (h : copy_byte dst olen m_pos = .ok r) :
    r.1.length = dst.length ∧ r.2.1 = olen + 1 ∧ olen < dst.length := by
  unfold copy_byte at h
  obtain ⟨v, -, h⟩ := bind_eq_ok h
  obtain ⟨d, hw, h⟩ := bind_eq_ok h
  unfold write_dst at hw
  by_cases hlt : olen < dst.length
  · rw [if_pos hlt] at hw
    cases hw
    cases h
    exact ⟨by simp, Nat.mod_eq_of_lt (by omega), hlt⟩
  · rw [if_neg hlt] at hw; cases hw

theorem copy_loop_count : ∀ (fuel : Nat) (dst : List Byte) (olen m_pos m_len : Nat)
    (r : List Byte × Nat), dst.length < U32 → m_len < U32 →
    copy_loop fuel dst olen m_pos m_len = .ok r →
    r.1.length = dst.length ∧ r.2 = olen + (if m_len = 0 then U32 else m_len) ∧
      r.2 ≤ dst.length := by
  intro fuel
  induction fuel with
  | zero => intro dst olen m_pos m_len r _ _ h; cases h
  | succ fuel ih =>
    intro dst olen m_pos m_len r hU hm h
    have hq : (m_len + U32 - 1) % U32 + 1 = if m_len = 0 then U32 else m_len := by
      by_cases h0 : m_len = 0
      · subst h0; rfl
      · have : m_len + U32 - 1 = (m_len - 1) + U32 := by omega
        rw [if_neg h0, this, Nat.add_mod_right, Nat.mod_eq_of_lt (by omega)]
        omega
    unfold copy_loop at h
    generalize (m_len + U32 - 1) % U32 = q at hq h
    obtain ⟨⟨d1, o1, p1⟩, hc, h⟩ := bind_eq_ok h
    have hb := copy_byte_ok dst olen m_pos _ hU hc
    simp only at hb h
    by_cases hpos : q > 0
    · rw [if_pos hpos] at h
      have hqlt : q < U32 := by split at hq <;> omega
      have := ih d1 o1 p1 q r (by omega) hqlt h
      rw [if_neg (by omega)] at this
      refine ⟨by omega, by omega, by omega⟩
    · rw [if_neg hpos] at h
      cases h
      refine ⟨hb.1, by simp only; omega, by simp only; omega⟩

/-- A copy step that completes has written one byte more than its length argument, which
is then at least 1. -/
theorem copy_step_count (dst : List Byte) (olen m_off m_len : Nat) (r : List Byte × Nat)
    (hU : dst.length < U32) (hm : m_len < U32) (h : copy_step dst olen m_off m_len = .ok r) :
    1 ≤ m_len ∧ r.2 = olen + m_len + 1 ∧ r.1.length = dst.length := by
  unfold copy_step at h
  obtain ⟨⟨d1, o1, p1⟩, hc, h⟩ := bind_eq_ok h
  have hb := copy_byte_ok dst olen _ _ hU hc
  simp only at hb h
  have hl := copy_loop_count U32 d1 o1 p1 m_len r (by omega) hm h
  by_cases h0 : m_len = 0
  · rw [if_pos h0] at hl; omega
  · rw [if_neg h0] at hl
    exact ⟨by omega, by omega, by omega⟩

theorem length_decode_cases (src : List Byte) (fuel : Nat) (rd rd' : Reader)
    (seed m_len : Nat) (hseed : seed ≤ 1)
    (h : length_decode src fuel rd seed = .ok (m_len, rd')) :
    (seed = 1 ∧ ∃ b, b ≤ 1 ∧ get_bit src rd = .ok (b, rd') ∧ m_len = 1 + b) ∨
    (seed = 0 ∧ ∃ rd1 b, b ≤ 1 ∧ get_bit src rd = .ok (1, rd1) ∧
      get_bit src rd1 = .ok (b, rd') ∧ m_len = 3 + b) ∨
    (seed = 0 ∧ ∃ rd1 m, get_bit src rd = .ok (0, rd1) ∧
      length_loop src fuel rd1 1 = .ok (m, rd') ∧ m_len = (m + 3) % U32) := by
  unfold length_decode at h
  by_cases hs : seed > 0
  · rw [if_pos hs] at h
    obtain ⟨⟨b, rd1⟩, hg, h⟩ := bind_eq_ok h
    cases h
    exact Or.inl ⟨by omega, b, ((get_bit_holds src rd).ok hg).1, hg, rfl⟩
  · rw [if_neg hs] at h
    have hs0 : seed = 0 := by omega
    subst hs0
    obtain ⟨⟨t, rd1⟩, hg, h⟩ := bind_eq_ok h
    have ht := ((get_bit_holds src rd).ok hg).1
    simp only at h ht
    by_cases ht1 : t = 1
    · subst ht1
      rw [if_pos rfl] at h
      obtain ⟨⟨b, rd2⟩, hg2, h⟩ := bind_eq_ok h
      cases h
      exact Or.inr (Or.inl ⟨rfl, rd1, b, ((get_bit_holds src rd1).ok hg2).1, hg, hg2, rfl⟩)
    · rw [if_neg ht1] at h
      have ht0 : t = 0 := by omega
      subst ht0
      obtain ⟨⟨m, rd2⟩, hl, h⟩ := bind_eq_ok h
      cases h
      exact Or.inr (Or.inr ⟨rfl, rd1, m, hg, hl, rfl⟩)

theorem mod_mul_add (x c y U : Nat) : ((x % U) * c + y) % U = (x * c + y) % U := by
  rw [Nat.add_mod, Nat.mul_mod, Nat.mod_mod, ← Nat.mul_mod, ← Nat.add_mod]

theorem length_loop_reads (src : List Byte) (tail : List Event) (rd_end : Reader) :
    ∀ (as : List Bool) (fuel : Nat) (rd : Reader) (m : Nat), as ≠ [] → as.length ≤ fuel →
      Reads src rd (length_code as ++ tail) rd_end →
      ∃ rd1, length_loop src fuel rd m
          = .ok ((m * 2 ^ as.length + bits_val as.length as) % U32, rd1) ∧
        Reads src rd1 tail rd_end := by
  intro as
  induction as with
  | nil => intro fuel rd m h; exact absurd rfl h
  | cons a as ih =>
    intro fuel rd m _ hf h
    cases fuel with
    | zero => simp at hf
    | succ fuel =>
      cases as with
      | nil =>
        obtain ⟨rd1, h1, rd2, h2, h⟩ := h
        refine ⟨rd2, ?_, h⟩
        unfold length_loop
        simp [h1, h2, bind, Except.bind, pure, Except.pure, bits_val]
      | cons a2 as =>
        obtain ⟨rd1, h1, rd2, h2, h⟩ := h
        obtain ⟨rd3, h3, hr⟩ := ih fuel rd2 ((m * 2 + a.toNat) % U32) (by simp)
          (by simpa using hf) h
        refine ⟨rd3, ?_, hr⟩
        conv_lhs => unfold length_loop
        simp only [h1, h2, bind, Except.bind, Bool.toNat_false, if_true]
        rw [h3, mod_mul_add]
        congr 2
        simp only [List.length_cons, bits_val, Nat.pow_succ]
        ring_nf

/-! ## The base64 decoder -/

set_option maxRecDepth 100000 in
theorem base64_table_spec : ∀ b : Byte,
    (is_base64 b → base64_table b = (sextet b : Int)) ∧
    (¬ is_base64 b → base64_table b = -1) := by
  decide

theorem base64_loop_stop (c : Byte) (hc : ¬ is_base64 c) (b : List Byte) :
    ∀ (a : List Byte) (val : Nat) (valb : Int) (out : List Byte),
      (∀ x ∈ a, is_base64 x) →
      base64_loop (a ++ c :: b) val valb out = base64_loop a val valb out := by
  intro a
  induction a with
  | nil =>
    intro val valb out _
    simp only [List.nil_append, base64_loop, (base64_table_spec c).2 hc, if_true]
  | cons x a ih =>
    intro val valb out ha
    have hx : base64_table x ≠ -1 := by
      rw [(base64_table_spec x).1 (ha x (List.mem_cons_self x a))]
      omega
    have ha' : ∀ y ∈ a, is_base64 y := fun y hy => ha y (List.mem_cons_of_mem x hy)
    simp only [List.cons_append, base64_loop, if_neg hx]
    split
    · exact ih _ _ _ ha'
    · exact ih _ _ _ ha'

theorem sextet_lt (b : Byte) : sextet b < 64 := by
  unfold sextet
  split
  · omega
  · split
    · omega
    · split
      · omega
      · split <;> omega

theorem sextets_val_concat (pre : List Byte) (b : Byte) :
    sextets_val (pre ++ [b]) = sextets_val pre * 64 + sextet b := by
  simp [sextets_val, List.foldl_append]

theorem div_pow_add_six (A v e : Nat) (hv : v < 64) :
    (A * 64 + v) / 2 ^ (e + 6) = A / 2 ^ e := by
  have h64 : (2 : Nat) ^ (e + 6) = 64 * 2 ^ e := by rw [Nat.pow_add]; norm_num; ring
  rw [h64, ← Nat.div_div_eq_div_mul]
  congr 1
  omega

theorem and_255 (x : Nat) : x &&& 0xFF = x % 256 :=
  Nat.and_pow_two_sub_one_eq_mod x 8

theorem base64_step (pre out : List Byte) (val : Nat) (valb : Int) (b : Byte)
    (hb : is_base64 b) (hval : val = sextets_val pre % U32)
    (hvalb : valb = ((6 * pre.length % 8 : Nat) : Int) - 8) (hD : Decoded pre out) :
    ((val <<< 6) + (base64_table b).toNat) % U32 = sextets_val (pre ++ [b]) % U32 ∧
    (valb + 6 ≥ 0 →
      valb + 6 - 8 = ((6 * (pre ++ [b]).length % 8 : Nat) : Int) - 8 ∧
      Decoded (pre ++ [b]) (out ++
        [Fin.ofNat (((((val <<< 6) + (base64_table b).toNat) % U32)
          >>> (valb + 6).toNat) &&& 0xFF)])) ∧
    (¬ valb + 6 ≥ 0 →
      valb + 6 = ((6 * (pre ++ [b]).length % 8 : Nat) : Int) - 8 ∧
      Decoded (pre ++ [b]) out) := by
  have hv := sextet_lt b
  have hT : (base64_table b).toNat = sextet b := by
    rw [(base64_table_spec b).1 hb]; rfl
  have hA : sextets_val (pre ++ [b]) = sextets_val pre * 64 + sextet b :=
    sextets_val_concat pre b
  have hlen : (pre ++ [b]).length = pre.length + 1 := by simp
  obtain ⟨hl, hbytes⟩ := hD
  have hval' : ((val <<< 6) + (base64_table b).toNat) % U32 = sextets_val (pre ++ [b]) % U32 := by
    rw [hT, hA, hval, Nat.shiftLeft_eq]
    exact mod_mul_add _ _ _ _
  unfold Decoded
  rw [hval']
  simp only [hlen, hA]
  generalize sextets_val pre = A at *
  generalize sextet b = v at *
  generalize pre.length = k at *
  have hold : ∀ j, j < 6 * k / 8 →
      (A * 64 + v) / 2 ^ (6 * (k + 1) - 8 * (j + 1)) % 256
        = A / 2 ^ (6 * k - 8 * (j + 1)) % 256 := by
    intro j hj
    have : 6 * (k + 1) - 8 * (j + 1) = (6 * k - 8 * (j + 1)) + 6 := by omega
    rw [this, div_pow_add_six A v _ hv]
  refine ⟨trivial, fun hge => ?_, fun hlt => ?_⟩
  · refine ⟨by omega, ?_, fun j hj => ?_⟩
    · rw [List.length_append, hl]; simp only [List.length_cons, List.length_nil]; omega
    · by_cases hjl : j < 6 * k / 8
      · rw [List.getElem?_append_left (by omega), hbytes j hjl, hold j hjl]
      · have hj' : j = out.length := by omega
        subst hj'
        rw [List.getElem?_concat_length]
        simp only [Option.map_some', Fin.ofNat, and_255, Nat.shiftRight_eq_div_pow]
        congr 1
        have hs : (valb + 6).toNat = 6 * (k + 1) - 8 * (out.length + 1) := by omega
        rw [hs]
        have h3 : 6 * (k + 1) - 8 * (out.length + 1) = 0 ∨
            6 * (k + 1) - 8 * (out.length + 1) = 2 ∨
            6 * (k + 1) - 8 * (out.length + 1) = 4 := by omega
        rcases h3 with h | h | h <;> rw [h] <;> simp only [U32] <;> norm_num <;> omega
  · refine ⟨by omega, by omega, fun j hj => ?_⟩
    have hjl : j < 6 * k / 8 := by omega
    rw [hbytes j hjl, hold j hjl]

theorem base64_loop_decoded : ∀ (rest pre out : List Byte) (val : Nat) (valb : Int),
    (∀ b ∈ rest, is_base64 b) → val = sextets_val pre % U32 →
    valb = ((6 * pre.length % 8 : Nat) : Int) - 8 → Decoded pre out →
    Decoded (pre ++ rest) (base64_loop rest val valb out) := by
  intro rest
  induction rest with
  | nil =>
    intro pre out val valb _ _ _ hD
    simpa [base64_loop] using hD
  | cons b rest ih =>
    intro pre out val valb hall hval hvalb hD
    have hb : is_base64 b := hall b (List.mem_cons_self b rest)
    have hrest : ∀ x ∈ rest, is_base64 x := fun x hx => hall x (List.mem_cons_of_mem b hx)
    have hT : base64_table b ≠ -1 := by
      rw [(base64_table_spec b).1 hb]; omega
    obtain ⟨h1, h2, h3⟩ := base64_step pre out val valb b hb hval hvalb hD
    have happ : pre ++ b :: rest = (pre ++ [b]) ++ rest := by simp
    rw [happ]
    simp only [base64_loop, if_neg hT]
    by_cases hge : valb + 6 ≥ 0
    · rw [if_pos hge]
      exact ih _ _ _ _ hrest h1 (h2 hge).1 (h2 hge).2
    · rw [if_neg hge]
      exact ih _ _ _ _ hrest h1 (h3 hge).1 (h3 hge).2

/-! ## The main loop as the iteration of its pass -/

theorem main_loop_zero (src : List Byte) (budget : Nat) (st : Decoder) :
    main_loop src budget 0 st
      = if st.rd.ilen < src.length then .error .fuel else .ok (.exhausted, st) := by
  unfold main_loop
  by_cases hi : st.rd.ilen < src.length
  · simp only [hi, if_true]
  · simp only [hi, if_false]; rfl

/-- The main loop is the iteration of `main_pass`: while `ilen < src.size()` it runs one pass,
ends the run when the pass ends with a fault or with the `break`, and otherwise goes on from
the state the pass leaves. -/
theorem main_loop_succ (src : List Byte) (budget fuel : Nat) (st : Decoder) :
    main_loop src budget (fuel + 1) st
      = if st.rd.ilen < src.length then
          match main_pass src budget st with
          | .error e => .error e
          | .ok (.stop st') => .ok (.marker, st')
          | .ok (.next _ st') => main_loop src budget fuel st'
        else .ok (.exhausted, st) := by
  conv_lhs => unfold main_loop
  by_cases hi : st.rd.ilen < src.length
  · simp only [hi, if_true]
    unfold main_pass
    cases h1 : literal_loop src budget st.rd st.dst st.olen with
    | error e => simp only [bind, Except.bind]
    | ok r1 =>
      obtain ⟨rd1, dst1, olen1⟩ := r1
      simp only [bind, Except.bind]
      cases h2 : offset_loop src budget rd1 1 with
      | error e => simp only
      | ok r2 =>
        obtain ⟨p, rd2⟩ := r2
        simp only
        cases h3 : offset_decode src rd2 p st.last_m_off with
        | error e => simp only
        | ok o =>
          cases o with
          | stop rd3 => simp only [pure, Except.pure]
          | go rd3 m_off seed lmo =>
            simp only
            cases h4 : length_decode src budget rd3 seed with
            | error e => simp only
            | ok r4 =>
              obtain ⟨m_len, rd4⟩ := r4
              simp only
              cases h5 : copy_step dst1 olen1 m_off
                  ((m_len + (if m_off > 0x500 then 1 else 0)) % U32) with
              | error e => simp only
              | ok r5 =>
                obtain ⟨dst5, olen5⟩ := r5
                simp only [pure, Except.pure]
  · simp only [hi, if_false]; rfl

/-- What a pass that copies a match went through, step by step. -/
theorem main_pass_next (src : List Byte) (budget : Nat) (st st' : Decoder) (m_off : Nat)
    (h : main_pass src budget st = .ok (.next m_off st')) :
    Match src budget st m_off st' := by
  unfold main_pass at h
  obtain ⟨⟨rd1, dst1, olen1⟩, h1, h⟩ := bind_eq_ok h
  obtain ⟨⟨p, rd2⟩, h2, h⟩ := bind_eq_ok h
  obtain ⟨o, h3, h⟩ := bind_eq_ok h
  cases o with
  | stop rd3 => cases h
  | go rd3 m seed lmo =>
    simp only at h
    obtain ⟨⟨m_len, rd4⟩, h4, h⟩ := bind_eq_ok h
    obtain ⟨⟨dst5, olen5⟩, h5, h⟩ := bind_eq_ok h
    cases h
    exact ⟨rd1, dst1, olen1, p, rd2, rd3, seed, lmo, m_len, rd4, dst5, olen5,
      h1, h2, h3, h4, h5, rfl⟩

theorem main_pass_stop (src : List Byte) (budget : Nat) (st st' : Decoder)
    (h : main_pass src budget st = .ok (.stop st')) : st'.last_m_off = st.last_m_off := by
  unfold main_pass at h
  obtain ⟨⟨rd1, dst1, olen1⟩, h1, h⟩ := bind_eq_ok h
  obtain ⟨⟨p, rd2⟩, h2, h⟩ := bind_eq_ok h
  obtain ⟨o, h3, h⟩ := bind_eq_ok h
  cases o with
  | stop rd3 => cases h; rfl
  | go rd3 m seed lmo =>
    simp only at h
    obtain ⟨⟨m_len, rd4⟩, h4, h⟩ := bind_eq_ok h
    obtain ⟨⟨dst5, olen5⟩, h5, h⟩ := bind_eq_ok h
    cases h

theorem match_range (src : List Byte) (budget : Nat) (st st' : Decoder) (m_off : Nat)
    (h1 : 1 ≤ st.last_m_off) (h2 : st.last_m_off ≤ 2 ^ 31)
    (h : Match src budget st m_off st') :
    (1 ≤ m_off ∧ m_off ≤ 2 ^ 31) ∧ (1 ≤ st'.last_m_off ∧ st'.last_m_off ≤ 2 ^ 31) := by
  obtain ⟨rd1, dst1, olen1, p, rd2, rd3, seed, lmo, m_len, rd4, dst5, olen5,
    -, -, h3, -, -, rfl⟩ := h
  have hr := offset_decode_range src rd2 rd3 p st.last_m_off m_off seed lmo h1 h2 h3
  exact ⟨hr.1, hr.2.1⟩

theorem reachable_range (src : List Byte) (budget : Nat) (st0 st : Decoder)
    (h0 : st0.last_m_off = 1) (h : Reachable src budget st0 st) :
    1 ≤ st.last_m_off ∧ st.last_m_off ≤ 2 ^ 31 := by
  induction h with
  | start => rw [h0]; exact ⟨Nat.le_refl 1, by decide⟩
  | next s s' m_off _ _ hm ih =>
    exact (match_range src budget s s' m_off ih.1 ih.2 (main_pass_next src budget s s' m_off hm)).2

/-- Every run of the main loop from `st0` goes through states reachable from `st0` and ends
at one of them, unless the budget of the main loop runs out. -/
theorem main_loop_reaches (src : List Byte) (budget : Nat) (st0 : Decoder) :
    ∀ (fuel : Nat) (st : Decoder), Reachable src budget st0 st →
      main_loop src budget fuel st = .error .fuel ∨
      ∃ st1, Reachable src budget st0 st1 ∧
        LoopEnds src budget st1 (main_loop src budget fuel st) := by
  intro fuel
  induction fuel with
  | zero =>
    intro st hst
    rw [main_loop_zero]
    by_cases hi : st.rd.ilen < src.length
    · exact Or.inl (by simp only [hi, if_true])
    · refine Or.inr ⟨st, hst, ?_⟩
      unfold LoopEnds
      simp only [hi, if_false]
  | succ fuel ih =>
    intro st hst
    rw [main_loop_succ]
    by_cases hi : st.rd.ilen < src.length
    · simp only [hi, if_true]
      cases hp : main_pass src budget st with
      | error e =>
        refine Or.inr ⟨st, hst, ?_⟩
        unfold LoopEnds
        simp only [hi, if_true]
        exact Or.inr ⟨e, hp, rfl⟩
      | ok p =>
        cases p with
        | stop st' =>
          refine Or.inr ⟨st, hst, ?_⟩
          unfold LoopEnds
          simp only [hi, if_true]
          exact Or.inl ⟨st', hp, rfl⟩
        | next m_off st' =>
          exact ih st' (Reachable.next st st' m_off hst hi hp)
    · refine Or.inr ⟨st, hst, ?_⟩
      unfold LoopEnds
      simp only [hi, if_false]

/-! ## Literal-only bodies behind a header that declares too few bytes -/

theorem offset_decode_seed (src : List Byte) (rd rd' : Reader) (p lmo m_off seed lmo' : Nat)
    (h : offset_decode src rd p lmo = .ok (.go rd' m_off seed lmo')) : seed ≤ 1 := by
  by_cases hp : p = 2
  · subst hp
    rw [offset_decode_repeat] at h
    cases hg : get_bit src rd with
    | error e => rw [hg] at h; cases h
    | ok r =>
      have hb := ((get_bit_holds src rd).ok hg).1
      rw [hg] at h
      cases h
      exact hb
  · cases hb : read_src src rd.ilen with
    | error e =>
      unfold offset_decode at h
      rw [if_neg hp] at h
      simp only [hb, bind, Except.bind] at h
      cases h
    | ok b =>
      rw [offset_decode_fresh src rd p lmo b hp hb] at h
      generalize ((p + U32 - 3) % U32 * 256 + b.val) % U32 = v at h
      by_cases hu : v = UMAX
      · rw [if_pos hu] at h; cases h
      · rw [if_neg hu] at h
        cases h
        split <;> omega

theorem literal_loop_overflow (src : List Byte) (tail : List Event) :
    ∀ (L : List Byte) (fuel : Nat) (rd rd_end : Reader) (pre zs : List Byte),
      L.length < fuel → zs.length < L.length → (pre ++ zs).length < U32 →
      Reads src rd (literal_flags L ++ tail) rd_end →
      literal_loop src fuel rd (pre ++ zs) pre.length
        = .error (.dstWrite (pre ++ zs).length) := by
  intro L
  induction L with
  | nil =>
    intro fuel rd rd_end pre zs _ hz
    simp at hz
  | cons v L ih =>
    intro fuel rd rd_end pre zs hf hz hU h
    obtain ⟨rd1, hg, hr, h⟩ := h
    cases fuel with
    | zero => omega
    | succ fuel =>
      cases zs with
      | nil =>
        unfold literal_loop
        have hw : write_dst (pre ++ []) pre.length v = .error (.dstWrite (pre ++ []).length) := by
          simp [write_dst]
        simp only [hg, hr, hw, bind, Except.bind, Bool.toNat_true, if_true]
      | cons z zs =>
        simp only [List.length_cons, List.length_append] at hf hz hU
        have := ih fuel _ rd_end (pre ++ [v]) zs (by omega) (by omega)
          (by simp only [List.length_append, List.length_cons, List.length_nil]; omega) h
        unfold literal_loop
        have hw : write_dst (pre ++ z :: zs) pre.length v = .ok (pre ++ [v] ++ zs) := by
          simp [write_dst]
        have hmod : (pre.length + 1) % U32 = (pre ++ [v]).length := by
          rw [Nat.mod_eq_of_lt (by omega)]; simp
        simp only [hg, hr, hw, hmod, bind, Except.bind, Bool.toNat_true, if_true]
        rw [this]
        simp

/-- Decoding the literal-only body of `L` behind a header that declares `d < |L|` bytes, from
the initial reader state, reaches the write of the literal number `d` at index `d` of the
`d`-byte buffer; up to there every access is inside its vector and nothing is raised. -/
theorem decompress_run_sized_overflow (d : Nat) (L : List Byte) (hd : d < L.length)
    (hU : d < U32) :
    decompress_run Reader.initial (sized_stream d L) = .error (.dstWrite d) := by
  obtain ⟨rd', hreads, -⟩ := layout_reads 0xFF (literal_flags L) 0 (header d) 0
    (by simp [bits_val])
  have hlen := layout_length_literals L 0
  have hsrc := sized_stream_length d L
  unfold decompress_run
  have hds : read_dest_size (sized_stream d L) = .ok d :=
    read_dest_size_header d hU _
  simp only [hds, bind, Except.bind]
  have hl := literal_loop_overflow (sized_stream d L) [.raw 0xFF] L
    (unread_bits (sized_stream d L) Reader.initial + 1) Reader.initial rd' []
    (List.replicate d 0)
    (by simp only [unread_bits, hsrc]; show L.length < 8 * (_ - 4) + 0 + 1; omega)
    (by simpa using hd) (by simpa using hU) hreads
  simp only [List.nil_append, List.length_nil, List.length_replicate] at hl
  have hi : Reader.initial.ilen < (sized_stream d L).length := by
    show 4 < _; omega
  rw [show unread_bits (sized_stream d L) Reader.initial + 1
    = (unread_bits (sized_stream d L) Reader.initial) + 1 from rfl]
  unfold main_loop
  simp only [hi, if_true, hl, bind, Except.bind]

/-- With only the header left and the cursor at 4 or beyond, the main loop is not entered. -/
theorem decompress_run_header_only (rd : Reader) (s : List Byte) (D : Nat)
    (hs : s.length = 4) (hrd : 4 ≤ rd.ilen) (hD : read_dest_size s = .ok D) :
    decompress_run rd s
      = .ok (.exhausted, { rd := rd, dst := List.replicate D 0, olen := 0, last_m_off := 1 }) := by
  unfold decompress_run
  simp only [hD, bind, Except.bind]
  rw [main_loop_succ]
  have : ¬ rd.ilen < s.length := by omega
  simp only [this, if_false]

end NRV2E
namespace NRV2E

/-! ## The claims -/

/-- C1 (as the code has it): for every list `L` of literal bytes whose stream is at most
`INT_MAX = 2 ^ 31 - 1` bytes long, the stream made of the little-endian header `|L|` and the
literal-only body (a `1` flag before each literal, a `0` flag, the 38-bit end-marker code, bit
bytes placed where the reader first needs them, a final `0xFF`) is decoded from the initial
reader state to exactly `L`; the cursor `ilen` ends at the length of the stream, a value of
its type. -/
theorem decompress_literal_stream (L : List Byte)
    (h : (literal_stream L).length ≤ INT_MAX) :
    ∃ rd', decompress_NRV2E Reader.initial (literal_stream L) = .ok (L, rd') ∧
      rd'.ilen = (literal_stream L).length ∧ rd'.representable := by
  have hlen := layout_length_literals L 0
  have hsrc : (literal_stream L).length = 4 + (layout 0 (literal_events L)).length :=
    sized_stream_length L.length L
  have hn : L.length < U32 := by simp only [U32, INT_MAX] at h ⊢; omega
  obtain ⟨rd', hi, hrun⟩ := decompress_run_literal_stream L hn
  refine ⟨rd', ?_, hi, ?_⟩
  · unfold decompress_NRV2E
    rw [hrun]
    rfl
  · unfold Reader.representable
    rw [hi]
    exact h

theorem decompress_literal_stream_witness :
    literal_stream [0x41, 0x42, 0x43]
      = [0x03, 0, 0, 0, 0xE1, 0x41, 0x42, 0x43, 0x24, 0x92, 0x49, 0x25, 0x40, 0xFF] ∧
    ∃ rd', decompress_NRV2E Reader.initial (literal_stream [0x41, 0x42, 0x43])
        = .ok ([0x41, 0x42, 0x43], rd') ∧
      rd'.ilen = (literal_stream [0x41, 0x42, 0x43]).length ∧ rd'.representable :=
  ⟨by decide, decompress_literal_stream [0x41, 0x42, 0x43] (by decide)⟩

/-- C1 (as stated) fails: a list of `2 ^ 31 - 1` literal bytes is within the bound of the
claim, but its stream is longer than `INT_MAX` bytes, and decoding it to the list takes the
cursor `ilen` to the end of the stream: no value of the `signed ilen` of the program is that
large. -/
theorem decompress_literal_stream_cursor_overflows :
    (List.replicate 2147483647 (0 : Byte)).length < 2 ^ 31 ∧
    INT_MAX < (literal_stream (List.replicate 2147483647 0)).length ∧
    ∀ rd', decompress_NRV2E Reader.initial (literal_stream (List.replicate 2147483647 0))
        = .ok (List.replicate 2147483647 0, rd') →
      ¬ rd'.representable := by
  have hL : (List.replicate 2147483647 (0 : Byte)).length = 2147483647 :=
    List.length_replicate _ _
  generalize List.replicate 2147483647 (0 : Byte) = L at hL
  have hlen := layout_length_literals L 0
  have hsrc : (literal_stream L).length = 4 + (layout 0 (literal_events L)).length :=
    sized_stream_length L.length L
  have hbig : INT_MAX < (literal_stream L).length := by
    simp only [INT_MAX]; omega
  refine ⟨by rw [hL]; decide, hbig, fun rd' hrun => ?_⟩
  obtain ⟨rd0, hi, hrun0⟩ := decompress_run_literal_stream L (by simp only [U32]; omega)
  unfold decompress_NRV2E at hrun
  rw [hrun0] at hrun
  have hrd : rd0 = rd' := by
    simp only [bind, Except.bind, pure, Except.pure, Except.ok.injEq, Prod.mk.injEq] at hrun
    exact hrun.2
  subst hrd
  unfold Reader.representable
  omega
/-- C2: the copy step of a match with offset `1 ≤ m_off ≤ olen` and length `m_len ≥ 1` that
fits the buffer (`olen + m_len + 1 ≤ dest_size`) succeeds, advances `olen` by `m_len + 1`,
keeps the buffer length, writes at `olen + i` for `i = 0..m_len` the old byte at
`olen - m_off + i mod m_off`, and changes no other byte. -/
theorem copy_step_repeats_pattern (dst : List Byte) (olen m_off m_len : Nat)
    (h1 : 1 ≤ m_off) (h2 : m_off ≤ olen) (h3 : 1 ≤ m_len)
    (h4 : olen + m_len + 1 ≤ dst.length) (hU : dst.length < U32) :
    ∃ dst', copy_step dst olen m_off m_len = .ok (dst', olen + m_len + 1) ∧
      dst'.length = dst.length ∧
      (∀ i, i ≤ m_len → dst'[olen + i]? = dst[olen - m_off + i % m_off]?) ∧
      (∀ x, x < olen ∨ olen + m_len < x → dst'[x]? = dst[x]?) := by
  have hP0 : Pattern dst olen m_off dst 0 :=
    ⟨rfl, fun i hi => absurd hi (Nat.not_lt_zero i), fun x _ => rfl⟩
  obtain ⟨d1, hc, hP1⟩ := copy_byte_pattern dst olen m_off dst 0 h1 h2 (by omega) hU hP0
  obtain ⟨d', hc', hl, hnew, hold⟩ :=
    copy_loop_pattern dst olen m_off h1 h2 hU U32 d1 1 m_len h3 (by omega) (by omega) hP1
  refine ⟨d', ?_, hl, fun i hi => hnew i (by omega), fun x hx => hold x (by omega)⟩
  unfold copy_step
  rw [u32_sub_wrap olen m_off h2 (by omega)]
  simp only [Nat.add_zero] at hc
  simp only [hc, bind, Except.bind]
  have e : olen + 1 + m_len = olen + m_len + 1 := by omega
  rw [← e]
  exact hc'

theorem copy_step_repeats_pattern_witness :
    ∃ dst', copy_step [0x41, 0x42, 0x43, 0, 0, 0, 0, 0, 0] 3 2 3 = .ok (dst', 3 + 3 + 1) ∧
      dst'.length = ([0x41, 0x42, 0x43, 0, 0, 0, 0, 0, 0] : List Byte).length ∧
      (∀ i, i ≤ 3 →
        dst'[3 + i]? = ([0x41, 0x42, 0x43, 0, 0, 0, 0, 0, 0] : List Byte)[3 - 2 + i % 2]?) ∧
      (∀ x, x < 3 ∨ 3 + 3 < x →
        dst'[x]? = ([0x41, 0x42, 0x43, 0, 0, 0, 0, 0, 0] : List Byte)[x]?) :=
  copy_step_repeats_pattern [0x41, 0x42, 0x43, 0, 0, 0, 0, 0, 0] 3 2 3
    (by decide) (by decide) (by decide) (by decide) (by decide)

/-- C3: on an input of at least four bytes `b0 b1 b2 b3 ...`, whenever `decompress_NRV2E`
returns a buffer, the buffer has `b0 + 256*b1 + 65536*b2 + 16777216*b3` bytes, the
little-endian value of the header. -/
theorem decompress_length_eq_dest_size (rd rd' : Reader) (b0 b1 b2 b3 : Byte)
    (rest out : List Byte)
    (h : decompress_NRV2E rd (b0 :: b1 :: b2 :: b3 :: rest) = .ok (out, rd')) :
    out.length = b0.val + 256 * b1.val + 65536 * b2.val + 16777216 * b3.val := by
  have hrun := decompress_run_holds rd (b0 :: b1 :: b2 :: b3 :: rest)
  unfold decompress_NRV2E at h
  cases hr : decompress_run rd (b0 :: b1 :: b2 :: b3 :: rest) with
  | error e => rw [hr] at h; cases h
  | ok r =>
    rw [hr] at h hrun
    obtain ⟨D, hD, hF, -⟩ := hrun
    rw [read_dest_size_eq] at hD
    cases hD
    cases h
    exact hF

theorem decompress_length_eq_dest_size_witness :
    decompress_NRV2E Reader.initial
        (0x03 :: 0 :: 0 :: 0 :: [0xE1, 0x41, 0x42, 0x43, 0x24, 0x92, 0x49, 0x25, 0x40, 0xFF])
      = .ok ([0x41, 0x42, 0x43], ⟨14, 6, 0x40⟩) ∧
    ([0x41, 0x42, 0x43] : List Byte).length
      = (0x03 : Byte).val + 256 * (0 : Byte).val + 65536 * (0 : Byte).val
        + 16777216 * (0 : Byte).val :=
  ⟨by decide, decompress_length_eq_dest_size Reader.initial ⟨14, 6, 0x40⟩ 0x03 0 0 0
    [0xE1, 0x41, 0x42, 0x43, 0x24, 0x92, 0x49, 0x25, 0x40, 0xFF] [0x41, 0x42, 0x43] (by decide)⟩

/-- C4: the ten bytes `00 00 00 00 09 24 92 49 2A FF` (header 0, body only the end marker)
are decoded from the initial reader state, without error, to the empty buffer; the main loop
is left through the end-marker `break`. -/
theorem decompress_marker_only :
    decompress_NRV2E Reader.initial [0, 0, 0, 0, 0x09, 0x24, 0x92, 0x49, 0x2A, 0xFF]
      = .ok ([], ⟨10, 1, 0x2A⟩) ∧
    decompress_run Reader.initial [0, 0, 0, 0, 0x09, 0x24, 0x92, 0x49, 0x2A, 0xFF]
      = .ok (.marker, { rd := ⟨10, 1, 0x2A⟩, dst := [], olen := 0, last_m_off := 1 }) := by
  decide

/-- C5 fails on the code: the first call on the 14-byte stream returns `ABC` and leaves the
globals at cursor 14 with six buffered bits; the second call on the same argument starts
from those globals, skips the main loop and returns three zero bytes. -/
theorem decompress_second_call_differs :
    decompress_NRV2E Reader.initial
        [0x03, 0, 0, 0, 0xE1, 0x41, 0x42, 0x43, 0x24, 0x92, 0x49, 0x25, 0x40, 0xFF]
      = .ok ([0x41, 0x42, 0x43], ⟨14, 6, 0x40⟩) ∧
    decompress_NRV2E ⟨14, 6, 0x40⟩
        [0x03, 0, 0, 0, 0xE1, 0x41, 0x42, 0x43, 0x24, 0x92, 0x49, 0x25, 0x40, 0xFF]
      = .ok ([0, 0, 0], ⟨14, 6, 0x40⟩) := by
  decide

/-- C6 (as the code has it): when a stream is decoded by reaching the end marker at its last
byte, the decode of the stream without its last `k` bytes (`1 ≤ k ≤ length - 4`), as long as
it makes no byte read `src[ilen++]` beyond the end of the truncated stream, either raises the
out-of-range error of `get_bit` or leaves the main loop at the test `ilen < src.size()` with
the cursor at the end and returns the buffer.  With only the header left (`k = length - 4`,
cursor at 4 or beyond) it returns the zero-filled buffer.  Nothing is stated about a decode
that makes such a read. -/
theorem decompress_truncated (rd : Reader) (s : List Byte) (k : Nat) (st : Decoder)
    (h : decompress_run rd s = .ok (.marker, st)) (hend : st.rd.ilen = s.length)
    (hk1 : 1 ≤ k) (hk2 : k ≤ s.length - 4) :
    ((∀ i, decompress_run rd (s.take (s.length - k)) ≠ .error (.srcIndex i)) →
      decompress_run rd (s.take (s.length - k)) = .error .outOfRange ∨
      ∃ st', decompress_run rd (s.take (s.length - k)) = .ok (.exhausted, st') ∧
        s.length - k ≤ st'.rd.ilen) ∧
    (k = s.length - 4 → 4 ≤ rd.ilen →
      ∃ D, read_dest_size s = .ok D ∧
        decompress_run rd (s.take (s.length - k))
          = .ok (.exhausted,
              { rd := rd, dst := List.replicate D 0, olen := 0, last_m_off := 1 })) := by
  have hlen : (s.take (s.length - k)).length = s.length - k := by
    rw [List.length_take]; omega
  have happ := read_dest_size_append (s.take (s.length - k)) (s.drop (s.length - k))
    (by rw [hlen]; omega)
  rw [List.take_append_drop] at happ
  refine ⟨fun hsafe => ?_, fun hk hrd => ?_⟩
  · have hT := decompress_run_trunc rd (s.take (s.length - k)) (s.drop (s.length - k))
      (by rw [hlen]; omega)
    rw [List.take_append_drop, hlen, h] at hT
    rcases hT with h1 | ⟨i, h2⟩ | h3 | h4 | ⟨st', h5, h5'⟩ | ⟨h6, h6'⟩
    · exact Or.inl h1
    · exact absurd h2 (hsafe i)
    · have := (decompress_run_holds rd (s.take (s.length - k))).error h3
      exact absurd rfl this.1
    · cases h4
    · exact Or.inr ⟨st', h5, h5'⟩
    · have := h6' st h6
      omega
  · unfold decompress_run at h
    obtain ⟨D, hD, -⟩ := bind_eq_ok h
    refine ⟨D, hD, ?_⟩
    exact decompress_run_header_only rd _ D (by rw [hlen]; omega) hrd (by rw [← happ]; exact hD)

theorem decompress_truncated_witness :
    decompress_run Reader.initial
        [0x03, 0, 0, 0, 0xE1, 0x41, 0x42, 0x43, 0x24, 0x92, 0x49, 0x25, 0x40, 0xFF]
      = .ok (.marker,
          { rd := ⟨14, 6, 0x40⟩, dst := [0x41, 0x42, 0x43], olen := 3, last_m_off := 1 }) ∧
    (decompress_run Reader.initial
        (List.take (14 - 1)
          [0x03, 0, 0, 0, 0xE1, 0x41, 0x42, 0x43, 0x24, 0x92, 0x49, 0x25, 0x40, 0xFF])
      = .error .outOfRange ∨
    ∃ st', decompress_run Reader.initial
        (List.take (14 - 1)
          [0x03, 0, 0, 0, 0xE1, 0x41, 0x42, 0x43, 0x24, 0x92, 0x49, 0x25, 0x40, 0xFF])
      = .ok (.exhausted, st') ∧ 14 - 1 ≤ st'.rd.ilen) :=
  ⟨by decide, (decompress_truncated Reader.initial
    [0x03, 0, 0, 0, 0xE1, 0x41, 0x42, 0x43, 0x24, 0x92, 0x49, 0x25, 0x40, 0xFF] 1
    { rd := ⟨14, 6, 0x40⟩, dst := [0x41, 0x42, 0x43], olen := 3, last_m_off := 1 }
    (by decide) (by decide) (by decide) (by decide)).1
    (fun i hi => by
      have hrun : decompress_run Reader.initial
          (List.take (14 - 1)
            [0x03, 0, 0, 0, 0xE1, 0x41, 0x42, 0x43, 0x24, 0x92, 0x49, 0x25, 0x40, 0xFF])
          = .error .outOfRange := by decide
      have hne := hrun.symm.trans hi
      cases hne)⟩

/-- C6 (as stated) fails: the 14-byte stream decodes to `ABC` by reaching the end marker at
its last byte; without its last 10 bytes only the header is left, the main loop is not
entered, and the call returns the three zero bytes of the fresh buffer as success. -/
theorem decompress_truncated_returns_buffer :
    decompress_run Reader.initial
        [0x03, 0, 0, 0, 0xE1, 0x41, 0x42, 0x43, 0x24, 0x92, 0x49, 0x25, 0x40, 0xFF]
      = .ok (.marker,
          { rd := ⟨14, 6, 0x40⟩, dst := [0x41, 0x42, 0x43], olen := 3, last_m_off := 1 }) ∧
    (1 ≤ 10 ∧ 10 ≤ 14 - 4) ∧
    decompress_NRV2E Reader.initial
        (List.take (14 - 10)
          [0x03, 0, 0, 0, 0xE1, 0x41, 0x42, 0x43, 0x24, 0x92, 0x49, 0x25, 0x40, 0xFF])
      = .ok ([0, 0, 0], Reader.initial) := by
  decide

/-- C7 (as the code has it): nothing compares `olen` with `dest_size` before `return dst`.
When a run returns and every access it made was inside its vector, the buffer has `dest_size`
bytes, the write cursor `olen` is at most `dest_size`, and the bytes from `olen` on were never
written: they are still zero.  Such an incomplete decode is returned, not reported: for every
literal-only body of `n` bytes behind a header that declares `d ≥ n` bytes (in a stream of at
most `INT_MAX` bytes) the call returns the `n` literals followed by `d - n` zero bytes, with
the write cursor at `n`.  Nothing is stated about a run that writes outside its buffer. -/
theorem decompress_olen_le_dest_size (rd : Reader) (src : List Byte) (e : Exit) (st : Decoder)
    (h : decompress_run rd src = .ok (e, st)) :
    (∃ D, read_dest_size src = .ok D ∧ st.dst.length = D ∧ st.olen ≤ D ∧
      ∀ i, st.olen ≤ i → i < D → st.dst[i]? = some 0) ∧
    (∀ (d : Nat) (L : List Byte), d < U32 → L.length ≤ d →
      (sized_stream d L).length ≤ INT_MAX →
      ∃ rd', rd'.representable ∧
        decompress_run Reader.initial (sized_stream d L)
          = .ok (.marker,
              { rd := rd', dst := L ++ List.replicate (d - L.length) 0, olen := L.length,
                last_m_off := 1 }) ∧
        decompress_NRV2E Reader.initial (sized_stream d L)
          = .ok (L ++ List.replicate (d - L.length) 0, rd')) := by
  refine ⟨?_, fun d L hd hL hmax => ?_⟩
  · have hrun := decompress_run_holds rd src
    rw [h] at hrun
    obtain ⟨D, hD, hF⟩ := hrun
    exact ⟨D, hD, hF⟩
  · obtain ⟨rd', hi, hrun⟩ := decompress_run_sized_stream d L hd hL
    refine ⟨rd', ?_, hrun, ?_⟩
    · unfold Reader.representable
      rw [hi]
      exact hmax
    · unfold decompress_NRV2E
      rw [hrun]
      rfl

theorem decompress_olen_le_dest_size_witness :
    (∃ D, read_dest_size [0x05, 0, 0, 0, 0xE1, 0x41, 0x42, 0x43, 0x24, 0x92, 0x49, 0x25, 0x40, 0xFF]
        = .ok D ∧
      ([0x41, 0x42, 0x43, 0, 0] : List Byte).length = D ∧ 3 ≤ D ∧
      ∀ i, 3 ≤ i → i < D → ([0x41, 0x42, 0x43, 0, 0] : List Byte)[i]? = some 0) ∧
    sized_stream 5 [0x41, 0x42, 0x43]
      = [0x05, 0, 0, 0, 0xE1, 0x41, 0x42, 0x43, 0x24, 0x92, 0x49, 0x25, 0x40, 0xFF] :=
  ⟨(decompress_olen_le_dest_size Reader.initial
    [0x05, 0, 0, 0, 0xE1, 0x41, 0x42, 0x43, 0x24, 0x92, 0x49, 0x25, 0x40, 0xFF] .marker
    { rd := ⟨14, 6, 0x40⟩, dst := [0x41, 0x42, 0x43, 0, 0], olen := 3, last_m_off := 1 }
    (by decide)).1, by decide⟩

/-- C7 (as stated) fails: with header `dest_size = 5` and a body of the three literals
`A B C` and the end marker, the call returns the five bytes `A B C 00 00` as success while the
write cursor is 3. -/
theorem decompress_returns_incomplete :
    decompress_run Reader.initial
        [0x05, 0, 0, 0, 0xE1, 0x41, 0x42, 0x43, 0x24, 0x92, 0x49, 0x25, 0x40, 0xFF]
      = .ok (.marker,
          { rd := ⟨14, 6, 0x40⟩, dst := [0x41, 0x42, 0x43, 0, 0], olen := 3, last_m_off := 1 }) ∧
    read_dest_size [0x05, 0, 0, 0, 0xE1, 0x41, 0x42, 0x43, 0x24, 0x92, 0x49, 0x25, 0x40, 0xFF]
      = .ok 5 ∧
    (3 : Nat) ≠ 5 := by
  decide

/-- C8 (as the code has it): `get_bit` raises its out-of-range error exactly when the byte
cursor is at or past the end of the stream, whatever the number of buffered bits; it raises
nothing else, and with the cursor inside the stream and bits buffered it returns the next
buffered bit and leaves the cursor alone. -/
theorem get_bit_raises_iff (src : List Byte) (rd : Reader) :
    (get_bit src rd = .error .outOfRange ↔ src.length ≤ rd.ilen) ∧
    (∀ e, get_bit src rd = .error e → e = .outOfRange) ∧
    (rd.ilen < src.length → 0 < rd.current_bit →
      get_bit src rd = .ok ((rd.current_byte.val >>> (rd.current_bit - 1)) &&& 1,
        { rd with current_bit := rd.current_bit - 1 })) := by
  refine ⟨⟨fun h => ?_, get_bit_of_le src rd⟩, fun e h => ?_, get_bit_buffered src rd⟩
  · by_contra hlt
    obtain ⟨b, rd', hok, -⟩ := get_bit_of_lt src rd (by omega)
    rw [hok] at h
    cases h
  · rcases Nat.lt_or_ge rd.ilen src.length with hlt | hge
    · obtain ⟨b, rd', hok, -⟩ := get_bit_of_lt src rd hlt
      rw [hok] at h
      cases h
    · rw [get_bit_of_le src rd hge] at h
      cases h
      rfl

theorem get_bit_raises_iff_witness :
    (3 : Nat) < ([0, 0, 0, 0, 0xA5] : List Byte).length ∧ 0 < (5 : Nat) ∧
    get_bit [0, 0, 0, 0, 0xA5] ⟨3, 5, 0xA5⟩ = .ok (0, ⟨3, 4, 0xA5⟩) :=
  ⟨by decide, by decide,
    (get_bit_raises_iff [0, 0, 0, 0, 0xA5] ⟨3, 5, 0xA5⟩).2.2 (by decide) (by decide)⟩

/-- C8 (as stated) fails: on the five-byte stream `00 00 00 00 A5` the first `get_bit` loads
the last byte and leaves seven bits buffered; the next call raises the out-of-range error
although no new byte is required. -/
theorem get_bit_raises_with_buffered_bits :
    get_bit [0, 0, 0, 0, 0xA5] Reader.initial = .ok (1, ⟨5, 7, 0xA5⟩) ∧
    ¬ (get_bit [0, 0, 0, 0, 0xA5] ⟨5, 7, 0xA5⟩ = .error .outOfRange ↔
        ((⟨5, 7, 0xA5⟩ : Reader).current_bit = 0 ∧
          ([0, 0, 0, 0, 0xA5] : List Byte).length ≤ (⟨5, 7, 0xA5⟩ : Reader).ilen)) := by
  decide

/-- C9: with no buffered bits and the cursor `i` at least two bytes before the end, the
first `get_bit` loads `src[i]`, moves the cursor to `i + 1` and returns bit 7; the next seven
calls return bits 6 down to 0 with the cursor unchanged, and leave no buffered bit. -/
theorem get_bit_eight_msb_first (src : List Byte) (i : Nat) (c : Byte)
    (h : i + 1 < src.length) :
    ∃ b : Byte, src[i]? = some b ∧
      get_bit src ⟨i, 0, c⟩ = .ok (b.val / 2 ^ 7 % 2, ⟨i + 1, 7, b⟩) ∧
      ∀ k, 1 ≤ k → k < 8 →
        get_bit src ⟨i + 1, 8 - k, b⟩ = .ok (b.val / 2 ^ (7 - k) % 2, ⟨i + 1, 7 - k, b⟩) := by
  have hi : i < src.length := by omega
  refine ⟨src[i], List.getElem?_eq_getElem hi, ?_, fun k hk1 hk8 => ?_⟩
  · rw [get_bit_load src i c _ (List.getElem?_eq_getElem hi), Nat.and_one_is_mod,
      Nat.shiftRight_eq_div_pow]
  · rw [get_bit_buffered src ⟨i + 1, 8 - k, src[i]⟩ h (by simp; omega), Nat.and_one_is_mod,
      Nat.shiftRight_eq_div_pow]
    have : 8 - k - 1 = 7 - k := by omega
    simp [this]

theorem get_bit_eight_msb_first_witness :
    ∃ b : Byte, ([0, 0, 0, 0, 0xA5, 0xFF] : List Byte)[4]? = some b ∧
      get_bit [0, 0, 0, 0, 0xA5, 0xFF] ⟨4, 0, 0⟩ = .ok (b.val / 2 ^ 7 % 2, ⟨4 + 1, 7, b⟩) ∧
      ∀ k, 1 ≤ k → k < 8 →
        get_bit [0, 0, 0, 0, 0xA5, 0xFF] ⟨4 + 1, 8 - k, b⟩
          = .ok (b.val / 2 ^ (7 - k) % 2, ⟨4 + 1, 7 - k, b⟩) :=
  get_bit_eight_msb_first [0, 0, 0, 0, 0xA5, 0xFF] 4 0 (by decide)

/-- C10 (as the code has it): no write is checked.  A run that returns with every access
inside its vector has kept the write cursor within `dest_size`.  When the first access outside
a vector is a write to the buffer, that write is at index `dest_size` exactly, and it is the
unchecked `dst[olen++] = ...`, which the program performs: no error is raised.  For every
literal-only body of `n` bytes behind a header that declares `d < n` bytes (in a stream of at
most `INT_MAX` bytes) the decode reaches the write at index `d` of the `d`-byte buffer, without
an error before it.  Nothing is stated
about what the program does after that write. -/
theorem decompress_write_outside_at_dest_size (rd : Reader) (src : List Byte) :
    (∀ i, decompress_run rd src = .error (.dstWrite i) → read_dest_size src = .ok i) ∧
    (∀ e st, decompress_run rd src = .ok (e, st) →
      ∃ D, read_dest_size src = .ok D ∧ st.olen ≤ D) ∧
    (∀ (d : Nat) (L : List Byte), d < U32 → d < L.length →
      (sized_stream d L).length ≤ INT_MAX →
      decompress_run Reader.initial (sized_stream d L) = .error (.dstWrite d)) := by
  have hrun := decompress_run_holds rd src
  refine ⟨fun i h => ?_, fun e st h => ?_, fun d L hd hL _ => ?_⟩
  · rw [h] at hrun
    exact hrun.2 i rfl
  · rw [h] at hrun
    obtain ⟨D, hD, hF⟩ := hrun
    exact ⟨D, hD, hF.2.1⟩
  · exact decompress_run_sized_overflow d L hL hd

theorem decompress_write_outside_at_dest_size_witness :
    read_dest_size [0x02, 0, 0, 0, 0xE1, 0x41, 0x42, 0x43, 0x24, 0x92, 0x49, 0x25, 0x40, 0xFF]
      = .ok 2 ∧
    sized_stream 2 [0x41, 0x42, 0x43]
      = [0x02, 0, 0, 0, 0xE1, 0x41, 0x42, 0x43, 0x24, 0x92, 0x49, 0x25, 0x40, 0xFF] ∧
    decompress_run Reader.initial (sized_stream 2 [0x41, 0x42, 0x43]) = .error (.dstWrite 2) :=
  ⟨(decompress_write_outside_at_dest_size Reader.initial
    [0x02, 0, 0, 0, 0xE1, 0x41, 0x42, 0x43, 0x24, 0x92, 0x49, 0x25, 0x40, 0xFF]).1 2 (by decide),
   by decide,
   (decompress_write_outside_at_dest_size Reader.initial
    [0x02, 0, 0, 0, 0xE1, 0x41, 0x42, 0x43, 0x24, 0x92, 0x49, 0x25, 0x40, 0xFF]).2.2
    2 [0x41, 0x42, 0x43] (by decide) (by decide) (by decide)⟩

/-- C10 (as stated) fails: with header `dest_size = 2` and a body of three literals the third
literal is written at index 2 of a two-byte buffer; the run does not raise the error of
`get_bit`, it performs the out-of-bounds write. -/
theorem decompress_overflow_not_raised :
    decompress_run Reader.initial
        [0x02, 0, 0, 0, 0xE1, 0x41, 0x42, 0x43, 0x24, 0x92, 0x49, 0x25, 0x40, 0xFF]
      = .error (.dstWrite 2) ∧
    read_dest_size [0x02, 0, 0, 0, 0xE1, 0x41, 0x42, 0x43, 0x24, 0x92, 0x49, 0x25, 0x40, 0xFF]
      = .ok 2 ∧
    ¬ (2 : Nat) < 2 := by
  decide

/-- C12 fails on the code: on `03 00 00 00 E1` the first flag bit is read from the last
byte, and the literal byte is then read at index 5 of a five-byte stream; on
`00 00 00 00 00 80` the last bit of the offset code comes from the last byte and the extension
byte is read at index 6 of a six-byte stream.  Neither read raises the error of `get_bit`. -/
theorem decompress_byte_read_unchecked :
    decompress_run Reader.initial [3, 0, 0, 0, 0xE1] = .error (.srcIndex 5) ∧
    decompress_run Reader.initial [0, 0, 0, 0, 0x00, 0x80] = .error (.srcIndex 6) ∧
    get_bit [3, 0, 0, 0, 0xE1] ⟨5, 0, 0xE1⟩ = .error .outOfRange := by
  decide

/-- C13: when the offset code decodes to 2, the offset decode reads one bit and nothing else
(the reader it leaves is the one `get_bit` leaves), the match is copied from `last_m_off`
bytes back, the length seed is that bit, and `last_m_off` is unchanged in the next pass of the
main loop. -/
theorem repeat_offset_reuses_last (src : List Byte) (budget fuel : Nat) (st : Decoder)
    (rd1 : Reader) (dst1 : List Byte) (olen1 : Nat) (rd2 : Reader) (b : Nat) (rd3 : Reader)
    (hi : st.rd.ilen < src.length)
    (h1 : literal_loop src budget st.rd st.dst st.olen = .ok (rd1, dst1, olen1))
    (h2 : offset_loop src budget rd1 1 = .ok (2, rd2))
    (h3 : get_bit src rd2 = .ok (b, rd3)) :
    offset_decode src rd2 2 st.last_m_off = .ok (.go rd3 st.last_m_off b st.last_m_off) ∧
    ∀ m_len rd4 dst5 olen5, length_decode src budget rd3 b = .ok (m_len, rd4) →
      copy_step dst1 olen1 st.last_m_off
          ((m_len + (if st.last_m_off > 0x500 then 1 else 0)) % U32) = .ok (dst5, olen5) →
      main_loop src budget (fuel + 1) st
        = main_loop src budget fuel
            { rd := rd4, dst := dst5, olen := olen5, last_m_off := st.last_m_off } := by
  have hod : offset_decode src rd2 2 st.last_m_off
      = .ok (.go rd3 st.last_m_off b st.last_m_off) := by
    rw [offset_decode_repeat, h3]; rfl
  refine ⟨hod, fun m_len rd4 dst5 olen5 h4 h5 => ?_⟩
  exact main_loop_match src budget fuel st _ st.last_m_off hi
    ⟨rd1, dst1, olen1, 2, rd2, rd3, b, st.last_m_off, m_len, rd4, dst5, olen5,
      h1, h2, hod, h4, h5, rfl⟩

theorem repeat_offset_reuses_last_witness :
    offset_decode [3, 0, 0, 0, 0x98, 0x41, 0x24, 0x92, 0x49, 0x24, 0xA8, 0xFF] ⟨6, 4, 0x98⟩ 2 1 = .ok (.go ⟨6, 3, 0x98⟩ 1 1 1) ∧
    ∀ m_len rd4 dst5 olen5,
      length_decode [3, 0, 0, 0, 0x98, 0x41, 0x24, 0x92, 0x49, 0x24, 0xA8, 0xFF] 65 ⟨6, 3, 0x98⟩ 1 = .ok (m_len, rd4) →
      copy_step [0x41, 0, 0] 1 1 ((m_len + (if 1 > 0x500 then 1 else 0)) % U32)
        = .ok (dst5, olen5) →
      main_loop [3, 0, 0, 0, 0x98, 0x41, 0x24, 0x92, 0x49, 0x24, 0xA8, 0xFF] 65 (64 + 1)
          { rd := Reader.initial, dst := [0, 0, 0], olen := 0, last_m_off := 1 }
        = main_loop [3, 0, 0, 0, 0x98, 0x41, 0x24, 0x92, 0x49, 0x24, 0xA8, 0xFF] 65 64 { rd := rd4, dst := dst5, olen := olen5, last_m_off := 1 } :=
  repeat_offset_reuses_last [3, 0, 0, 0, 0x98, 0x41, 0x24, 0x92, 0x49, 0x24, 0xA8, 0xFF] 65 64
    { rd := Reader.initial, dst := [0, 0, 0], olen := 0, last_m_off := 1 }
    ⟨6, 6, 0x98⟩ [0x41, 0, 0] 1 ⟨6, 4, 0x98⟩ 1 ⟨6, 3, 0x98⟩
    (by decide) (by decide) (by decide) (by decide)

/-- C14 (as the code has it): as long as no access leaves its vector, every run ends.  The
budget of `unread_bits + 1` iterations that the main loop and each inner bit loop start with
never runs out, and every successful `get_bit` uses up exactly one unread bit.  The run
returns a value, or raises the error of `get_bit`, or reaches an unchecked access outside `src`
or `dst`; nothing is stated about what the program does from such an access on. -/
theorem decompress_terminates (rd : Reader) (src : List Byte) :
    decompress_run rd src ≠ .error .fuel ∧
    (∀ rd0 b rd1, get_bit src rd0 = .ok (b, rd1) →
      unread_bits src rd1 + 1 = unread_bits src rd0) ∧
    ((∃ r, decompress_run rd src = .ok r) ∨ decompress_run rd src = .error .outOfRange ∨
      (∃ i, decompress_run rd src = .error (.srcIndex i)) ∨
      (∃ i, decompress_run rd src = .error (.dstRead i)) ∨
      (∃ i, decompress_run rd src = .error (.dstWrite i))) := by
  have hfuel : decompress_run rd src ≠ .error .fuel := by
    intro h
    exact ((decompress_run_holds rd src).error h).1 rfl
  refine ⟨hfuel, fun rd0 b rd1 h => ?_, ?_⟩
  · have := (get_bit_holds src rd0).ok h
    exact this.2.1
  · cases hr : decompress_run rd src with
    | ok r => exact Or.inl ⟨r, rfl⟩
    | error e =>
      cases e with
      | outOfRange => exact Or.inr (Or.inl rfl)
      | srcIndex i => exact Or.inr (Or.inr (Or.inl ⟨i, rfl⟩))
      | dstRead i => exact Or.inr (Or.inr (Or.inr (Or.inl ⟨i, rfl⟩)))
      | dstWrite i => exact Or.inr (Or.inr (Or.inr (Or.inr ⟨i, rfl⟩)))
      | fuel => exact absurd hr hfuel

theorem decompress_terminates_witness :
    unread_bits [3, 0, 0, 0, 0xE1, 0x41] ⟨5, 7, 0xE1⟩ + 1
      = unread_bits [3, 0, 0, 0, 0xE1, 0x41] Reader.initial :=
  (decompress_terminates Reader.initial [3, 0, 0, 0, 0xE1, 0x41]).2.1
    Reader.initial 1 ⟨5, 7, 0xE1⟩ (by decide)

/-- C14 (as stated) fails, on `02 00 00 00 30 00` and on the 15-byte stream below.  On the
first the only pass decodes a repeat-offset match with offset 1 while nothing has been written:
`m_pos = olen - m_off` wraps to `2 ^ 32 - 1` and the copy reads `dst[4294967295]` of a two-byte
buffer.  On the second a literal `A` is followed by a repeat-offset match whose long length
code wraps, so that `m_len` is 0: the first copy and the first pass of the loop
`do ... while (--m_len > 0)` fill the three-byte buffer, the loop counter wraps to `2 ^ 32 - 1`,
and the loop goes on with the write at index 3, with that many passes still to run.  At these
accesses the run has not returned a buffer and has raised no error: the program is reading or
writing far outside its buffer. -/
theorem decompress_copy_leaves_buffer :
    (decompress_run Reader.initial [2, 0, 0, 0, 0x30, 0x00] = .error (.dstRead 4294967295) ∧
      decompress_run Reader.initial [2, 0, 0, 0, 0x30, 0x00] ≠ .error .outOfRange ∧
      ¬ ∃ r, decompress_run Reader.initial [2, 0, 0, 0, 0x30, 0x00] = .ok r) ∧
    (length_decode [3, 0, 0, 0, 0x92, 0x41, 0xAA, 0xAA, 0xAA, 0xAA, 0xAA, 0xAA, 0xAA, 0x8C, 0] 89 ⟨6, 3, 0x92⟩ 0 = .ok (0, ⟨14, 2, 0x8C⟩) ∧
      (0 + U32 - 1) % U32 = 4294967295 ∧
      decompress_run Reader.initial [3, 0, 0, 0, 0x92, 0x41, 0xAA, 0xAA, 0xAA, 0xAA, 0xAA, 0xAA, 0xAA, 0x8C, 0] = .error (.dstWrite 3) ∧
      decompress_run Reader.initial [3, 0, 0, 0, 0x92, 0x41, 0xAA, 0xAA, 0xAA, 0xAA, 0xAA, 0xAA, 0xAA, 0x8C, 0] ≠ .error .outOfRange ∧
      ¬ ∃ r, decompress_run Reader.initial [3, 0, 0, 0, 0x92, 0x41, 0xAA, 0xAA, 0xAA, 0xAA, 0xAA, 0xAA, 0xAA, 0x8C, 0] = .ok r) := by
  have h1 : decompress_run Reader.initial [2, 0, 0, 0, 0x30, 0x00]
      = .error (.dstRead 4294967295) := by
    decide
  have h2 : decompress_run Reader.initial [3, 0, 0, 0, 0x92, 0x41, 0xAA, 0xAA, 0xAA, 0xAA, 0xAA, 0xAA, 0xAA, 0x8C, 0] = .error (.dstWrite 3) := by
    decide
  refine ⟨⟨h1, ?_, ?_⟩, by decide, by decide, h2, ?_, ?_⟩
  · rw [h1]; decide
  · rintro ⟨r, h⟩
    rw [h1] at h
    cases h
  · rw [h2]; decide
  · rintro ⟨r, h⟩
    rw [h2] at h
    cases h
/-- C15: if every byte of `a` is in the alphabet and `c` is not, then
`base64_decode (a ++ [c] ++ b) = base64_decode a`. -/
theorem base64_decode_stops_at_invalid (a b : List Byte) (c : Byte)
    (ha : ∀ x ∈ a, is_base64 x) (hc : ¬ is_base64 c) :
    base64_decode (a ++ [c] ++ b) = base64_decode a := by
  unfold base64_decode
  rw [List.append_assoc]
  exact base64_loop_stop c hc b a 0 (-8) [] ha

set_option maxRecDepth 10000 in
theorem base64_decode_stops_at_invalid_witness :
    base64_decode ([0x42, 0x67, 0x51, 0x41] ++ [0x3D] ++ [0x41, 0x41])
      = base64_decode [0x42, 0x67, 0x51, 0x41] :=
  base64_decode_stops_at_invalid [0x42, 0x67, 0x51, 0x41] [0x41, 0x41] 0x3D
    (by decide) (by decide)

/-- C16: for an input of `n` characters of the alphabet, `base64_decode` returns
`6 * n / 8` bytes, and byte `j` is bits `8j .. 8j+7` (most significant first) of the
concatenated 6-bit values of the characters; the value is taken without any reduction modulo
`2 ^ 32`, so the wraparound of the accumulator changes no emitted byte. -/
theorem base64_decode_bits (inp : List Byte) (h : ∀ b ∈ inp, is_base64 b) :
    (base64_decode inp).length = 6 * inp.length / 8 ∧
    ∀ j, j < 6 * inp.length / 8 →
      ((base64_decode inp)[j]?).map Fin.val
        = some (sextets_val inp / 2 ^ (6 * inp.length - 8 * (j + 1)) % 256) := by
  have hD0 : Decoded [] [] := ⟨rfl, fun j hj => absurd hj (by simp)⟩
  have := base64_loop_decoded inp [] [] 0 (-8) h rfl (by simp) hD0
  rw [List.nil_append] at this
  exact this

set_option maxRecDepth 10000 in
theorem base64_decode_bits_witness :
    (base64_decode [0x42, 0x67, 0x51, 0x41, 0x41, 0x4E, 0x74]).length = 6 * 7 / 8 ∧
    ∀ j, j < 6 * 7 / 8 →
      ((base64_decode [0x42, 0x67, 0x51, 0x41, 0x41, 0x4E, 0x74])[j]?).map Fin.val
        = some (sextets_val [0x42, 0x67, 0x51, 0x41, 0x41, 0x4E, 0x74]
            / 2 ^ (6 * 7 - 8 * (j + 1)) % 256) :=
  base64_decode_bits [0x42, 0x67, 0x51, 0x41, 0x41, 0x4E, 0x74] (by decide)

/-- C17: with `v = ((p - 3) * 256 + b) mod 2 ^ 32` for an offset code `p ≠ 2` and extension
byte `b`: if `v` is all ones the offset decode stops the loop; otherwise the match offset and
the new `last_m_off` are both `v / 2 + 1`, and the length seed is 1 for even `v`, 0 for odd
`v`. -/
theorem fresh_offset_value (src : List Byte) (rd : Reader) (p lmo : Nat) (b : Byte) (v : Nat)
    (hp : p ≠ 2) (hb : read_src src rd.ilen = .ok b)
    (hv : (v : Int) = (((p : Int) - 3) * 256 + (b.val : Int)) % 2 ^ 32) :
    (v = 0xFFFFFFFF →
      offset_decode src rd p lmo = .ok (.stop { rd with ilen := rd.ilen + 1 })) ∧
    (v ≠ 0xFFFFFFFF →
      offset_decode src rd p lmo
        = .ok (.go { rd with ilen := rd.ilen + 1 } (v / 2 + 1)
            (if v % 2 = 0 then 1 else 0) (v / 2 + 1))) := by
  have hb256 := b.isLt
  have hmodel : ((p + U32 - 3) % U32 * 256 + b.val) % U32 = v := by
    simp only [U32]
    omega
  rw [offset_decode_fresh src rd p lmo b hp hb, hmodel]
  constructor
  · intro h; rw [if_pos (by simpa [UMAX] using h)]
  · intro h; rw [if_neg (by simpa [UMAX] using h)]

theorem fresh_offset_value_witness :
    ((4 : Nat) = 0xFFFFFFFF →
      offset_decode [0, 0, 0, 0, 4] ⟨4, 0, 0⟩ 3 1 = .ok (.stop ⟨4 + 1, 0, 0⟩)) ∧
    ((4 : Nat) ≠ 0xFFFFFFFF →
      offset_decode [0, 0, 0, 0, 4] ⟨4, 0, 0⟩ 3 1
        = .ok (.go ⟨4 + 1, 0, 0⟩ (4 / 2 + 1) (if 4 % 2 = 0 then 1 else 0) (4 / 2 + 1))) :=
  fresh_offset_value [0, 0, 0, 0, 4] ⟨4, 0, 0⟩ 3 1 4 4 (by decide) (by decide) (by decide)

/-- C18 (as the code has it): in a pass of the main loop that decodes a match of offset
`m_off` and length code `m_len`, the copy step is run with the length `m_len` plus 1 exactly
when `m_off` is greater than `0x500`, and the next pass starts from what it leaves.  When the
copy step completes, that length is at least 1 and the copy step has written one byte more
than it.  The length code is `1 + b` for seed 1, `3 + b` for seed 0 followed by a `1` bit, and
otherwise 3 plus the value of the long code, which starts at 1 and is doubled and extended by
a bit in each round until a `1` bit ends it; with fewer than 30 rounds that value does not wrap
and the length is at least 5. -/
theorem match_length (src : List Byte) (budget fuel : Nat) (st : Decoder)
    (rd1 : Reader) (dst1 : List Byte) (olen1 p : Nat) (rd2 rd3 : Reader)
    (m_off seed lmo m_len : Nat) (rd4 : Reader)
    (hi : st.rd.ilen < src.length) (hU : dst1.length < U32)
    (h1 : literal_loop src budget st.rd st.dst st.olen = .ok (rd1, dst1, olen1))
    (h2 : offset_loop src budget rd1 1 = .ok (p, rd2))
    (h3 : offset_decode src rd2 p st.last_m_off = .ok (.go rd3 m_off seed lmo))
    (hd : length_decode src budget rd3 seed = .ok (m_len, rd4)) :
    (main_loop src budget (fuel + 1) st
      = match copy_step dst1 olen1 m_off ((m_len + (if m_off > 0x500 then 1 else 0)) % U32) with
        | .error e => .error e
        | .ok (dst5, olen5) =>
          main_loop src budget fuel
            { rd := rd4, dst := dst5, olen := olen5, last_m_off := lmo }) ∧
    (∀ dst5 olen5,
      copy_step dst1 olen1 m_off ((m_len + (if m_off > 0x500 then 1 else 0)) % U32)
        = .ok (dst5, olen5) →
      1 ≤ m_len + (if m_off > 0x500 then 1 else 0) ∧
      olen5 = olen1 + (m_len + (if m_off > 0x500 then 1 else 0)) + 1) ∧
    (seed ≤ 1 ∧
     ((seed = 1 ∧ ∃ b, b ≤ 1 ∧ get_bit src rd3 = .ok (b, rd4) ∧ m_len = 1 + b) ∨
      (seed = 0 ∧ ∃ rd5 b, b ≤ 1 ∧ get_bit src rd3 = .ok (1, rd5) ∧
        get_bit src rd5 = .ok (b, rd4) ∧ m_len = 3 + b) ∨
      (seed = 0 ∧ ∃ rd5 m, get_bit src rd3 = .ok (0, rd5) ∧
        length_loop src budget rd5 1 = .ok (m, rd4) ∧ m_len = (m + 3) % U32))) ∧
    (∀ (as : List Bool) (rd5 rd_end : Reader) (tail : List Event),
      as ≠ [] → as.length < 30 → as.length ≤ budget →
      Reads src rd5 (length_code as ++ tail) rd_end →
      ∃ rd6, length_loop src budget rd5 1
          = .ok (2 ^ as.length + bits_val as.length as, rd6) ∧
        (2 ^ as.length + bits_val as.length as + 3) % U32
          = 2 ^ as.length + bits_val as.length as + 3 ∧
        5 ≤ 2 ^ as.length + bits_val as.length as + 3 ∧
        Reads src rd6 tail rd_end) := by
  have hseed : seed ≤ 1 := offset_decode_seed src rd2 rd3 p st.last_m_off m_off seed lmo h3
  have hcases := length_decode_cases src budget rd3 rd4 seed m_len hseed hd
  have hml : m_len < U32 := by
    rcases hcases with ⟨-, b, hb, -, rfl⟩ | ⟨-, rd5, b, hb, -, -, rfl⟩ | ⟨-, rd5, m, -, -, rfl⟩
    · simp only [U32]; omega
    · simp only [U32]; omega
    · exact Nat.mod_lt _ (by decide)
  refine ⟨?_, fun dst5 olen5 hc => ?_, ⟨hseed, hcases⟩,
    fun as rd5 rd_end tail hne hlen hf hr => ?_⟩
  · conv_lhs => unfold main_loop
    simp only [hi, if_true, h1, h2, h3, hd, bind, Except.bind]
    generalize copy_step dst1 olen1 m_off ((m_len + (if m_off > 0x500 then 1 else 0)) % U32) = r
    cases r with
    | error e => rfl
    | ok v => rfl
  · have hcount := copy_step_count dst1 olen1 m_off _ (dst5, olen5) hU
      (Nat.mod_lt _ (by decide)) hc
    have hbias : (if m_off > 0x500 then 1 else 0) ≤ 1 := by split <;> omega
    generalize (if m_off > 0x500 then 1 else 0) = bias at hcount hbias ⊢
    by_cases hw : m_len + bias < U32
    · rw [Nat.mod_eq_of_lt hw] at hcount
      exact ⟨hcount.1, hcount.2.1⟩
    · have : m_len + bias = U32 := by omega
      rw [this, Nat.mod_self] at hcount
      omega
  · obtain ⟨rd6, hl, hr2⟩ := length_loop_reads src tail rd_end as budget rd5 1 hne hf hr
    have hv := bits_val_lt as.length as
    have hpos : 1 ≤ as.length := List.length_pos.mpr hne
    have h2 : 2 ^ 1 ≤ 2 ^ as.length := Nat.pow_le_pow_right (by decide) hpos
    have h29 : 2 ^ as.length ≤ 2 ^ 29 := Nat.pow_le_pow_right (by decide) (by omega)
    have e29 : (2 : Nat) ^ 29 = 536870912 := by norm_num
    have e1 : (2 : Nat) ^ 1 = 2 := by norm_num
    rw [e29] at h29
    rw [e1] at h2
    generalize 2 ^ as.length = P at hl hv h2 h29 ⊢
    generalize bits_val as.length as = V at hl hv ⊢
    rw [Nat.one_mul, Nat.mod_eq_of_lt (by simp only [U32]; omega)] at hl
    exact ⟨rd6, hl, Nat.mod_eq_of_lt (by simp only [U32]; omega), by omega, hr2⟩

theorem match_length_witness :
    main_loop [3, 0, 0, 0, 0x98, 0x41, 0x24, 0x92, 0x49, 0x24, 0xA8, 0xFF] 65 (64 + 1)
        { rd := Reader.initial, dst := [0, 0, 0], olen := 0, last_m_off := 1 }
      = (match copy_step [0x41, 0, 0] 1 1 ((1 + (if 1 > 0x500 then 1 else 0)) % U32) with
        | .error e => .error e
        | .ok (dst5, olen5) =>
          main_loop [3, 0, 0, 0, 0x98, 0x41, 0x24, 0x92, 0x49, 0x24, 0xA8, 0xFF] 65 64
            { rd := ⟨6, 2, 0x98⟩, dst := dst5, olen := olen5, last_m_off := 1 }) ∧
    (1 ≤ 1 + (if 1 > 0x500 then 1 else 0) ∧
      (3 : Nat) = 1 + (1 + (if 1 > 0x500 then 1 else 0)) + 1) :=
  ⟨(match_length [3, 0, 0, 0, 0x98, 0x41, 0x24, 0x92, 0x49, 0x24, 0xA8, 0xFF] 65 64
      { rd := Reader.initial, dst := [0, 0, 0], olen := 0, last_m_off := 1 }
      ⟨6, 6, 0x98⟩ [0x41, 0, 0] 1 2 ⟨6, 4, 0x98⟩ ⟨6, 3, 0x98⟩ 1 1 1 1 ⟨6, 2, 0x98⟩
      (by decide) (by decide) (by decide) (by decide) (by decide) (by decide)).1,
    (match_length [3, 0, 0, 0, 0x98, 0x41, 0x24, 0x92, 0x49, 0x24, 0xA8, 0xFF] 65 64
      { rd := Reader.initial, dst := [0, 0, 0], olen := 0, last_m_off := 1 }
      ⟨6, 6, 0x98⟩ [0x41, 0, 0] 1 2 ⟨6, 4, 0x98⟩ ⟨6, 3, 0x98⟩ 1 1 1 1 ⟨6, 2, 0x98⟩
      (by decide) (by decide) (by decide) (by decide) (by decide) (by decide)).2.1
      [0x41, 0x41, 0x41] 3 (by decide)⟩

/-- C18 (as stated) fails: in the stream below a literal `A` is followed by a repeat-offset
match whose long length code has 32 rounds; its value wraps to `2 ^ 32 - 3`, so `m_len` is 0.
The copy step does not write `m_len + 1 = 1` byte: the first copy and the first pass of the
loop write indices 1 and 2, the loop counter wraps to `2 ^ 32 - 1`, and the next pass writes
at index 3 of the three-byte buffer. -/
theorem match_length_zero_wraps :
    length_decode [3, 0, 0, 0, 0x92, 0x41, 0xAA, 0xAA, 0xAA, 0xAA, 0xAA, 0xAA, 0xAA, 0x8C, 0] 89 ⟨6, 3, 0x92⟩ 0 = .ok (0, ⟨14, 2, 0x8C⟩) ∧
    copy_byte [0x41, 0, 0] 1 0 = .ok ([0x41, 0x41, 0], 2, 1) ∧
    copy_byte [0x41, 0x41, 0] 2 1 = .ok ([0x41, 0x41, 0x41], 3, 2) ∧
    copy_step [0x41, 0, 0] 1 1 ((0 + (if 1 > 0x500 then 1 else 0)) % U32)
      = .error (.dstWrite 3) ∧
    decompress_run Reader.initial [3, 0, 0, 0, 0x92, 0x41, 0xAA, 0xAA, 0xAA, 0xAA, 0xAA, 0xAA, 0xAA, 0x8C, 0] = .error (.dstWrite 3) := by
  decide
/-- C19: when `decompress_NRV2E` returns on `s` by reaching the end marker, it returns the
same buffer (and leaves the same reader state) on `s ++ t` for every `t`. -/
theorem decompress_ignores_trailing_bytes (rd : Reader) (s t : List Byte) (st : Decoder)
    (h : decompress_run rd s = .ok (.marker, st)) :
    decompress_run rd (s ++ t) = .ok (.marker, st) ∧
    decompress_NRV2E rd s = .ok (st.dst, st.rd) ∧
    decompress_NRV2E rd (s ++ t) = .ok (st.dst, st.rd) := by
  have h2 := decompress_run_append rd s t st h
  refine ⟨h2, ?_, ?_⟩
  · unfold decompress_NRV2E; rw [h]; rfl
  · unfold decompress_NRV2E; rw [h2]; rfl

theorem decompress_ignores_trailing_bytes_witness :
    decompress_run Reader.initial
        ([0x03, 0, 0, 0, 0xE1, 0x41, 0x42, 0x43, 0x24, 0x92, 0x49, 0x25, 0x40, 0xFF]
          ++ [0x12, 0x34])
      = .ok (.marker,
          { rd := ⟨14, 6, 0x40⟩, dst := [0x41, 0x42, 0x43], olen := 3, last_m_off := 1 }) ∧
    decompress_NRV2E Reader.initial
        [0x03, 0, 0, 0, 0xE1, 0x41, 0x42, 0x43, 0x24, 0x92, 0x49, 0x25, 0x40, 0xFF]
      = .ok ([0x41, 0x42, 0x43], ⟨14, 6, 0x40⟩) ∧
    decompress_NRV2E Reader.initial
        ([0x03, 0, 0, 0, 0xE1, 0x41, 0x42, 0x43, 0x24, 0x92, 0x49, 0x25, 0x40, 0xFF]
          ++ [0x12, 0x34])
      = .ok ([0x41, 0x42, 0x43], ⟨14, 6, 0x40⟩) :=
  decompress_ignores_trailing_bytes Reader.initial
    [0x03, 0, 0, 0, 0xE1, 0x41, 0x42, 0x43, 0x24, 0x92, 0x49, 0x25, 0x40, 0xFF] [0x12, 0x34]
    { rd := ⟨14, 6, 0x40⟩, dst := [0x41, 0x42, 0x43], olen := 3, last_m_off := 1 } (by decide)

/-- C20: `main_loop` is the iteration of `main_pass`, and every run of it from a state with
`last_m_off = 1` goes through states reachable at the head of the loop and ends at one of
them.  In every such state `last_m_off` is between 1 and `2 ^ 31`, the match a pass copies
from such a state has its offset in that range (never 0), and so has `last_m_off` in the state
in which the loop, and with it a run of the decompressor, returns. -/
theorem last_m_off_in_range (src : List Byte) (budget : Nat) (st0 : Decoder)
    (h0 : st0.last_m_off = 1) :
    (∀ fuel st, main_loop src budget (fuel + 1) st
      = if st.rd.ilen < src.length then
          match main_pass src budget st with
          | .error e => .error e
          | .ok (.stop st') => .ok (.marker, st')
          | .ok (.next _ st') => main_loop src budget fuel st'
        else .ok (.exhausted, st)) ∧
    (∀ fuel, main_loop src budget fuel st0 = .error .fuel ∨
      ∃ st, Reachable src budget st0 st ∧
        LoopEnds src budget st (main_loop src budget fuel st0)) ∧
    (∀ st, Reachable src budget st0 st →
      (1 ≤ st.last_m_off ∧ st.last_m_off ≤ 2 ^ 31) ∧
      ∀ m_off st', main_pass src budget st = .ok (.next m_off st') →
        (1 ≤ m_off ∧ m_off ≤ 2 ^ 31) ∧ (1 ≤ st'.last_m_off ∧ st'.last_m_off ≤ 2 ^ 31)) ∧
    (∀ fuel e st, main_loop src budget fuel st0 = .ok (e, st) →
      1 ≤ st.last_m_off ∧ st.last_m_off ≤ 2 ^ 31) ∧
    (∀ rd e st, decompress_run rd src = .ok (e, st) →
      1 ≤ st.last_m_off ∧ st.last_m_off ≤ 2 ^ 31) := by
  refine ⟨fun fuel st => main_loop_succ src budget fuel st,
    fun fuel => main_loop_reaches src budget st0 fuel st0 Reachable.start,
    fun st hst => ?_, fun fuel e st hrun => ?_, fun rd e st hrun => ?_⟩
  · have hinv := reachable_range src budget st0 st h0 hst
    exact ⟨hinv, fun m_off st' hp =>
      match_range src budget st st' m_off hinv.1 hinv.2 (main_pass_next src budget st st' m_off hp)⟩
  · rcases main_loop_reaches src budget st0 fuel st0 Reachable.start with hf | ⟨st1, hst1, hend⟩
    · rw [hrun] at hf; cases hf
    · have hinv := reachable_range src budget st0 st1 h0 hst1
      rw [hrun] at hend
      unfold LoopEnds at hend
      by_cases hi : st1.rd.ilen < src.length
      · rw [if_pos hi] at hend
        rcases hend with ⟨st', hp, heq⟩ | ⟨e', -, heq⟩
        · cases heq
          rw [main_pass_stop src budget st1 st hp]
          exact hinv
        · cases heq
      · rw [if_neg hi] at hend
        cases hend
        exact hinv
  · unfold decompress_run at hrun
    obtain ⟨D, -, hrun⟩ := bind_eq_ok hrun
    exact main_loop_last_m_off src _ _ _ st e (Nat.le_refl 1)
      (show (1 : Nat) ≤ 2 ^ 31 by decide) hrun

theorem last_m_off_in_range_witness :
    (1 ≤ (1 : Nat) ∧ (1 : Nat) ≤ 2 ^ 31) ∧
    ∀ m_off st',
      main_pass [3, 0, 0, 0, 0x98, 0x41, 0x24, 0x92, 0x49, 0x24, 0xA8, 0xFF] 65
        { rd := ⟨6, 2, 0x98⟩, dst := [0x41, 0x41, 0x41], olen := 3, last_m_off := 1 }
        = .ok (.next m_off st') →
      (1 ≤ m_off ∧ m_off ≤ 2 ^ 31) ∧ (1 ≤ st'.last_m_off ∧ st'.last_m_off ≤ 2 ^ 31) :=
  (last_m_off_in_range [3, 0, 0, 0, 0x98, 0x41, 0x24, 0x92, 0x49, 0x24, 0xA8, 0xFF] 65
    { rd := Reader.initial, dst := [0, 0, 0], olen := 0, last_m_off := 1 } rfl).2.2.1
    { rd := ⟨6, 2, 0x98⟩, dst := [0x41, 0x41, 0x41], olen := 3, last_m_off := 1 }
    (Reachable.next _ _ 1 Reachable.start (by decide) (by decide))
end NRV2E
